import Mathlib

/-!
Verification of the Nerdle equations generator (notebook `0.equations_generator.ipynb`).

The development shallowly embeds the notebook's four functions:
`gen_patterns`, `solve_expression`, `solve_result` and the candidate filter
of `gen_equations`.  Strings are `List Char`; Python's `None` results become
`Option`; Python runtime exceptions (IndexError, TypeError, ZeroDivisionError,
ValueError) are modelled by an explicit `Fault` in an `Except` layer.

Modelling notes, recorded once here:
* `str.isnumeric()` and the regex class `\D` are modelled over the ASCII
  digits `'0'..'9'` (`Char.isDigit`); the source only ever feeds the
  functions characters drawn from digits, `+ - * /` and `=`.
* Python float division (`/=`) is modelled by exact fraction arithmetic
  (`Frac`), matching the notebook's own description and recorded test
  outputs (for instance `8/10*5` evaluates to exactly `4`).
* `int * str` in Python is string repetition; every evaluator state that
  performs it ends in a TypeError at the final `sum` anyway, so the model
  raises `typeError` at the operation itself.
* The two index-driven while-loops are written with an explicit step
  counter (`fuel`).  The counter only runs out at states where the index
  has already walked past the list (`i ≥ length` resp. `i ≥ length + 1`),
  and at those states the zero-fuel branch returns exactly what the loop
  would: IndexError when the loop condition still holds, the list itself
  otherwise.  The top-level entry points supply the exact bound.
-/

/-- Python exception kinds the evaluator can raise. -/
inductive Fault where
  | indexError
  | typeError
  | divByZero
  | valueError
deriving DecidableEq, Repr

/-- The four arithmetic operator characters of the game. -/
def ops4 : List Char := ['+', '-', '*', '/']

/-- Membership in the regex character class `[+,\-,*,\/]` of the
pre-validation; note the class literally contains the comma. -/
def inOpClass (c : Char) : Bool :=
  c = '+' || c = ',' || c = '-' || c = '*' || c = '/'

/-- Some pair of adjacent characters both lie in the class `[+,\-,*,\/]`
(first alternative of the pre-validation regex). -/
def hasConsecOps : List Char → Bool
  | c :: d :: rest => (inOpClass c && inOpClass d) || hasConsecOps (d :: rest)
  | _ => false

/-- The string starts with `'0'` (regex alternative `^0+`). -/
def startsWithZero : List Char → Bool
  | '0' :: _ => true
  | _ => false

/-- Some non-digit character is immediately followed by `'0'`
(regex alternative `\D0+`). -/
def hasNonDigitZero : List Char → Bool
  | c :: d :: rest => (!c.isDigit && d = '0') || hasNonDigitZero (d :: rest)
  | _ => false

/-- `re.findall(r"[+,\-,*,\/]{2}|^0+|\D0+", expression)` is non-empty:
the pre-validation of `solve_expression` rejects the string. -/
def prevalidReject (s : List Char) : Bool :=
  hasConsecOps s || startsWithZero s || hasNonDigitZero s

/-- The "JOINING NUMBERS" stage of `solve_expression`: maximal runs of
digits collapse into one string element, every other character stays a
one-character element, and the final `temp` is appended unconditionally
(so a string ending in a non-digit contributes a trailing `""` element). -/
def joinNumsAux (temp : List Char) : List Char → List (List Char)
  | [] => [temp]
  | c :: cs =>
    if c.isDigit then joinNumsAux (temp ++ [c]) cs
    else if temp = [] then [c] :: joinNumsAux [] cs
    else temp :: [c] :: joinNumsAux [] cs

/-- The element list produced by the "JOINING NUMBERS" stage. -/
def joinNums (s : List Char) : List (List Char) := joinNumsAux [] s

/-- Python's substring test `element in "+-"`: true exactly for
`""`, `"+"`, `"-"` and `"+-"`. -/
def inPM : List Char → Bool
  | [] => true
  | ['+'] => true
  | ['-'] => true
  | ['+', '-'] => true
  | _ => false

/-- `"+" in expression or "-" in expression` on the element list. -/
def containsSign (ts : List (List Char)) : Bool :=
  ts.contains ['+'] || ts.contains ['-']

/-- The "JOINING NUMBERS TO OPERATORS" while-loop of `solve_expression`.
While a `"+"` or `"-"` element is present, element `i-1` is inspected;
if it passes Python's substring test against `"+-"` it absorbs element
`i`, and `i` then increments in every iteration.  Out-of-range reads
raise `indexError` exactly where Python would.  The step counter
maintains `fuel + i ≥ length + 1`, so at zero fuel `i - 1 ≥ length` and
the zero-fuel branch is the loop's true behavior at that state. -/
def signJoinF : Nat → List (List Char) → Nat → Except Fault (List (List Char))
  | 0, ts, _ => if containsSign ts then .error .indexError else .ok ts
  | fuel + 1, ts, i =>
    if containsSign ts then
      match ts[i - 1]? with
      | none => .error .indexError
      | some prev =>
        if inPM prev then
          match ts[i]? with
          | none => .error .indexError
          | some cur => signJoinF fuel ((ts.set (i - 1) (prev ++ cur)).eraseIdx i) (i + 1)
        else signJoinF fuel ts (i + 1)
    else .ok ts

/-- The sign-absorption loop as run by `solve_expression` (`i` starts at 1). -/
def signJoin (ts : List (List Char)) : Except Fault (List (List Char)) :=
  signJoinF (ts.length + 1) ts 1

/-- Integer value of a digit character. -/
def digitVal (c : Char) : Nat := c.toNat - '0'.toNat

/-- Decimal value of a digit string. -/
def digitsVal (cs : List Char) : Nat := cs.foldl (fun a c => a * 10 + digitVal c) 0

/-- Python `int(element)` on the strings this program builds: an optional
single leading sign followed by a non-empty run of ASCII digits. -/
def toIntOpt : List Char → Option Int
  | [] => none
  | '+' :: rest =>
    if rest = [] then none
    else if rest.all Char.isDigit then some (digitsVal rest) else none
  | '-' :: rest =>
    if rest = [] then none
    else if rest.all Char.isDigit then some (-(digitsVal rest : Int)) else none
  | cs =>
    if cs.all Char.isDigit then some (digitsVal cs) else none

/-- An exact, unnormalized fraction.  Models the Python numbers held in
the element list: `int`s and the floats produced by `/`.  On every token
the program ever builds, `den ≠ 0`.  Kept unnormalized so that all
arithmetic is structurally computable. -/
structure Frac where
  num : Int
  den : Int
deriving DecidableEq, Repr

/-- A Python `int` as a fraction. -/
def Frac.ofInt (z : Int) : Frac := ⟨z, 1⟩

/-- `expression[i-1] *= expression[i+1]`. -/
def Frac.mul (a b : Frac) : Frac := ⟨a.num * b.num, a.den * b.den⟩

/-- `expression[i-1] /= expression[i+1]` (exact; the caller guards a
zero divisor). -/
def Frac.div (a b : Frac) : Frac := ⟨a.num * b.den, a.den * b.num⟩

/-- Addition, used by `sum(expression)`. -/
def Frac.add (a b : Frac) : Frac := ⟨a.num * b.den + b.num * a.den, a.den * b.den⟩

/-- The rational value of a fraction. -/
def Frac.val (a : Frac) : ℚ := (a.num : ℚ) / (a.den : ℚ)

/-- `result % 1 == 0`: the value is a whole number (for `den ≠ 0` this
is exactly divisibility of `num` by `den`). -/
def Frac.isWhole (a : Frac) : Bool := a.num % a.den = 0

/-- `int(result)` on a whole-valued fraction: the exact quotient. -/
def Frac.toInt (a : Frac) : Int := a.num / a.den

/-- An element of the Python list after the "CONVERTING NUMBERS TO INTS"
stage: either still a string, or a number. -/
inductive Tok where
  | str : List Char → Tok
  | num : Frac → Tok
deriving DecidableEq, Repr

/-- `int(element)` conversion with `ValueError` passed over. -/
def toTok (cs : List Char) : Tok :=
  match toIntOpt cs with
  | some z => .num (Frac.ofInt z)
  | none => .str cs

/-- `"/" in expression or "*" in expression` on the converted list. -/
def containsMD (ts : List Tok) : Bool :=
  ts.contains (.str ['/']) || ts.contains (.str ['*'])

/-- One `expression[i-1] /= expression[i+1]` or `*=` step.  Division by
zero raises; arithmetic with a leftover string element raises a
TypeError (see the module comment on `int * str`). -/
def applyOp (isDiv : Bool) (a b : Tok) : Except Fault Tok :=
  match a, b with
  | .num x, .num y =>
    if isDiv then
      if y.num = 0 then .error .divByZero else .ok (.num (x.div y))
    else .ok (.num (x.mul y))
  | _, _ => .error .typeError

/-- The "SOLVING MULTIPLICATIONS AND DIVISIONS" while-loop: while a `"/"`
or `"*"` element is present, scan with `i`; on a hit, combine elements
`i-1` and `i+1` and pop positions `i` and `i+1`, leaving `i` unchanged.
The step counter maintains `fuel + i ≥ length`, so at zero fuel
`i ≥ length` and the zero-fuel branch is the loop's true behavior. -/
def multDivF : Nat → List Tok → Nat → Except Fault (List Tok)
  | 0, ts, _ => if containsMD ts then .error .indexError else .ok ts
  | fuel + 1, ts, i =>
    if containsMD ts then
      match ts[i]? with
      | none => .error .indexError
      | some cur =>
        if cur = Tok.str ['/'] || cur = Tok.str ['*'] then
          match ts[i - 1]?, ts[i + 1]? with
          | some a, some b =>
            match applyOp (cur = Tok.str ['/']) a b with
            | .error f => .error f
            | .ok v => multDivF fuel (((ts.set (i - 1) v).eraseIdx i).eraseIdx i) i
          | _, _ => .error .indexError
        else multDivF fuel ts (i + 1)
    else .ok ts

/-- The precedence-resolution loop as run by `solve_expression`. -/
def multDiv (ts : List Tok) : Except Fault (List Tok) :=
  multDivF ts.length ts 1

/-- `sum(expression)`: a leftover string element raises a TypeError,
otherwise the numbers are summed exactly.  (Summation order only affects
the unnormalized representative, never the value, wholeness test or
integer result.) -/
def sumToks : List Tok → Except Fault Frac
  | [] => .ok (Frac.ofInt 0)
  | .str _ :: _ => .error .typeError
  | .num q :: rest =>
    match sumToks rest with
    | .error f => .error f
    | .ok s => .ok (q.add s)

/-- `solve_expression` of the notebook: pre-validation, number joining,
sign absorption, int conversion, multiplication/division resolution, and
the final sum which is returned only when it is a whole number. -/
def solve_expression (s : List Char) : Except Fault (Option Int) :=
  if prevalidReject s then .ok none
  else
    match signJoin (joinNums s) with
    | .error f => .error f
    | .ok ts1 =>
      match multDiv (ts1.map toTok) with
      | .error f => .error f
      | .ok ts2 =>
        if ts2 = [] then .ok none
        else
          match sumToks ts2 with
          | .error f => .error f
          | .ok q => .ok (if q.isWhole then some q.toInt else none)

/-- After an initial zero: skip further zeros, then test for `1..9`. -/
def lzAfterZeros : List Char → Bool
  | [] => false
  | '0' :: rest => lzAfterZeros rest
  | c :: _ => '1' ≤ c && c ≤ '9'

/-- `re.findall(r"^0+[1-9]", result)` is non-empty: the string begins
with one or more `'0'` characters followed by a non-zero digit. -/
def leadingZeroViol : List Char → Bool
  | '0' :: rest => lzAfterZeros rest
  | _ => false

/-- `solve_result` of the notebook: reject head zeros before a non-zero
digit, otherwise `int(result)` (ValueError on a non-integer string). -/
def solve_result (s : List Char) : Except Fault (Option Int) :=
  if leadingZeroViol s then .ok none
  else
    match toIntOpt s with
    | some z => .ok (some z)
    | none => .error .valueError

/-- Helper: the character list of a string literal. -/
def strChars (s : String) : List Char := s.data

deriving instance DecidableEq for Except

/-- First expression position: digits `1..9`. -/
def D19 : List Char := ['1', '2', '3', '4', '5', '6', '7', '8', '9']

/-- Middle expression positions: all digits and the four operators. -/
def DOps : List Char :=
  ['1', '2', '3', '4', '5', '6', '7', '8', '9', '0', '+', '-', '*', '/']

/-- Digit-only positions: digits `1..9` and `0`. -/
def D09 : List Char := ['1', '2', '3', '4', '5', '6', '7', '8', '9', '0']

/-- `gen_patterns` for a given `NUMBER_OF_ELEMENTS` value `n`.  The loop
ranges over `equal_sign_idx ∈ range(4, n/2 + 3)`; the middle-position
count `equal_sign_idx + ((n - 8)/2 - 2)` is computed in `Int` (Python's
`range` is empty for a negative argument, matching `Int.toNat`).  All
divisions are exact for the even `n` the notebook uses. -/
def gen_patterns (n : Nat) : List (List (List Char)) :=
  (List.range' 4 (n / 2 + 3 - 4)).map fun (e : Nat) =>
    [D19]
      ++ List.replicate ((e : Int) + (((n : Int) - 8) / 2 - 2)).toNat DOps
      ++ [D09]
      ++ [['=']]
      ++ (if e < n / 2 + 2 then
            [D19] ++ List.replicate (n / 2 + 4 - (e + 2)) D09
          else [D09])

/-- The two game modes of `GAME_MODES`. -/
inductive GameMode where
  | mini
  | regular
deriving DecidableEq, Repr

/-- `NUMBER_OF_ELEMENTS` of a mode. -/
def elementCount : GameMode → Nat
  | .mini => 6
  | .regular => 8

/-- The patterns the notebook stores in `GAME_MODES[mode]["patterns"]`. -/
def genPatterns (m : GameMode) : List (List (List Char)) :=
  gen_patterns (elementCount m)

/-- `itertools.product(*pattern)`: all fixed-length strings drawn from the
per-position alphabets, leftmost position varying slowest. -/
def prodAll : List (List Char) → List (List Char)
  | [] => [[]]
  | a :: rest => a.flatMap fun c => (prodAll rest).map (c :: ·)

/-- The expression part of `equation.split("=")` (the candidate contains
exactly one `'='`). -/
def exprPart (c : List Char) : List Char := c.takeWhile (· ≠ '=')

/-- The result part of `equation.split("=")`. -/
def resPart (c : List Char) : List Char := (c.dropWhile (· ≠ '=')).tail

/-- The acceptance test of `gen_equations`: solve both sides and accept
iff neither is `None` and the two values agree.  A fault in either solver
would crash the Python program; it is surfaced here as `.error`. -/
def acceptCandidate (c : List Char) : Except Fault Bool :=
  match solve_expression (exprPart c) with
  | .error f => .error f
  | .ok v1 =>
    match solve_result (resPart c) with
    | .error f => .error f
    | .ok v2 =>
      .ok (match v1, v2 with
           | some a, some b => a = b
           | _, _ => false)

/-- The equations `gen_equations` writes to the output file for a mode:
every candidate of every pattern, kept iff accepted, in enumeration
order and unmodified. -/
def genEquations (m : GameMode) : List (List Char) :=
  (genPatterns m).flatMap fun p =>
    (prodAll p).filter fun c => decide (acceptCandidate c = Except.ok true)

/-- Modelled from the spec: "repeatedly, while any token is `*` or `/`,
locate the first such operator, replace it and its two neighboring
numeric tokens with their computed quotient or product".  One such
replacement step; `none` when the list has no such redex. -/
def specStep (ts : List Tok) : Option (List Tok) :=
  match ts.findIdx? (fun t => t = Tok.str ['/'] || t = Tok.str ['*']) with
  | none => none
  | some j =>
    match ts[j - 1]?, ts[j + 1]? with
    | some (.num a), some (.num b) =>
      if ts[j]? = some (Tok.str ['/']) then
        if b.num = 0 then none
        else some ((ts.set (j - 1) (.num (a.div b))).eraseIdx j |>.eraseIdx j)
      else some ((ts.set (j - 1) (.num (a.mul b))).eraseIdx j |>.eraseIdx j)
    | _, _ => none

/-- Modelled from the spec: iterate `specStep` until no `*` or `/` token
remains.  The number of tokens bounds the number of steps. -/
def specRunAux : Nat → List Tok → List Tok
  | 0, ts => ts
  | n + 1, ts =>
    match specStep ts with
    | some ts2 => specRunAux n ts2
    | none => ts

/-- Modelled from the spec: full leftmost-first precedence resolution. -/
def specRun (ts : List Tok) : List Tok := specRunAux ts.length ts

/-! ### Shape predicates and invariants used by the proofs -/

/-- Every element that `int()` parses is a nonzero number. -/
def NoZeroTok (ts : List (List Char)) : Prop :=
  ∀ t ∈ ts, ∀ z : Int, toIntOpt t = some z → z ≠ 0

/-- An element just after a bare sign element never starts with `'0'`. -/
def SignZero (ts : List (List Char)) : Prop :=
  List.Chain' (fun a b => (a = ['+'] ∨ a = ['-']) → b.head? ≠ some '0') ts

/-- An empty element only ever sits in last position. -/
def EmptyLast (ts : List (List Char)) : Prop :=
  ∀ j : Nat, ts[j]? = some ([] : List Char) → j + 1 = ts.length

/-- Every numeric element has nonzero numerator (value) and nonzero
denominator. -/
def GoodNum (ts : List Tok) : Prop :=
  ∀ f : Frac, Tok.num f ∈ ts → f.num ≠ 0 ∧ f.den ≠ 0

/-- A non-empty all-digit token (a maximal digit run). -/
def StrRun (t : List Char) : Prop := t ≠ [] ∧ t.all Char.isDigit = true

/-- A token `int()` can parse. -/
def NumTok (t : List Char) : Prop := (toIntOpt t).isSome = true

/-- A multiplication or division token. -/
def MDTok (t : List Char) : Prop := t = ['*'] ∨ t = ['/']

/-- The shape of the token list produced by number joining on a
well-formed expression: runs and isolated single-operator tokens,
starting (flag `true`) or not starting (flag `false`) with a run, and
always ending with a run. -/
inductive TokShape : Bool → List (List Char) → Prop
  | nil : TokShape false []
  | run {r : List Char} {rest : List (List Char)} :
      StrRun r → TokShape false rest → TokShape true (r :: rest)
  | op {c : Char} {rest : List (List Char)} :
      c ∈ ops4 → TokShape true rest → TokShape false ([c] :: rest)

/-- The result shape after sign absorption: only parseable numbers and
`*`/`/` tokens, number first and last, no two operator tokens adjacent. -/
def StrMSeq (ts : List (List Char)) : Prop :=
  ts ≠ [] ∧ (∀ t ∈ ts, NumTok t ∨ MDTok t) ∧
    (∀ t, ts.head? = some t → NumTok t) ∧
    (∀ t, ts.getLast? = some t → NumTok t) ∧
    List.Chain' (fun a b => ¬(MDTok a ∧ MDTok b)) ts

/-- Loop invariant of the sign-absorption run: the processed prefix
`done` holds numbers and `*`/`/` tokens only, and the unprocessed
suffix `todo` still has the joined-numbers shape, coupled at the
boundary. -/
def SJInv (done todo : List (List Char)) : Prop :=
  (∀ t ∈ done, NumTok t ∨ MDTok t) ∧
    (∀ t, done.head? = some t → NumTok t) ∧
    List.Chain' (fun a b => ¬(MDTok a ∧ MDTok b)) done ∧
    ((done = [] ∧ TokShape true todo) ∨
      (∃ t, done.getLast? = some t ∧ MDTok t ∧ TokShape true todo) ∨
      (∃ t, done.getLast? = some t ∧ NumTok t ∧
        (todo = [] ∨
          ∃ c rest, todo = [c] :: rest ∧ c ∈ ops4 ∧ TokShape true rest)))

/-- A numeric element. -/
def TNum (t : Tok) : Prop := ∃ q, t = Tok.num q

/-- A `*` or `/` element. -/
def TOp (t : Tok) : Prop := t = .str ['/'] ∨ t = .str ['*']

/-- Shape of the converted list entering the precedence loop: numbers
and isolated `*`/`/` operators, numbers first and last. -/
def TSeq (ts : List Tok) : Prop :=
  ts ≠ [] ∧ (∀ t ∈ ts, TNum t ∨ TOp t) ∧
    (∀ t, ts.head? = some t → TNum t) ∧
    (∀ t, ts.getLast? = some t → TNum t) ∧
    List.Chain' (fun a b => ¬(TOp a ∧ TOp b)) ts

/-- The exact fractional value of `sum(expression)` whenever evaluation
reaches the final summation: the number Python's `result % 1 == 0` test
is applied to. -/
def exprSum (s : List Char) : Option Frac :=
  if prevalidReject s then none
  else
    match signJoin (joinNums s) with
    | .error _ => none
    | .ok ts1 =>
      match multDiv (ts1.map toTok) with
      | .error _ => none
      | .ok ts2 =>
        if ts2 = [] then none
        else
          match sumToks ts2 with
          | .error _ => none
          | .ok q => some q

/-! ### Pre-validation lemmas -/

theorem hasConsecOps_cons_of (x : Char) {rest : List Char}
    (h : hasConsecOps rest = true) : hasConsecOps (x :: rest) = true := by
  cases rest with
  | nil => simp [hasConsecOps] at h
  | cons y r => simp [hasConsecOps] at h ⊢; tauto

theorem hasConsecOps_append (l : List Char) {c d : Char} (r : List Char)
    (hc : inOpClass c = true) (hd : inOpClass d = true) :
    hasConsecOps (l ++ c :: d :: r) = true := by
  induction l with
  | nil => simp [hasConsecOps, hc, hd]
  | cons a l ih => exact hasConsecOps_cons_of a ih

theorem hasNonDigitZero_cons_of (x : Char) {rest : List Char}
    (h : hasNonDigitZero rest = true) : hasNonDigitZero (x :: rest) = true := by
  cases rest with
  | nil => simp [hasNonDigitZero] at h
  | cons y r => simp [hasNonDigitZero] at h ⊢; tauto

theorem hasNonDigitZero_append (l : List Char) {c : Char} (r : List Char)
    (hc : c.isDigit = false) :
    hasNonDigitZero (l ++ c :: '0' :: r) = true := by
  induction l with
  | nil => simp [hasNonDigitZero, hc]
  | cons a l ih => exact hasNonDigitZero_cons_of a ih

theorem inOpClass_of_mem_ops4 {c : Char} (h : c ∈ ops4) : inOpClass c = true := by
  fin_cases h <;> decide

theorem not_digit_of_mem_ops4 {c : Char} (h : c ∈ ops4) : c.isDigit = false := by
  fin_cases h <;> decide

theorem solve_expression_of_reject {s : List Char} (h : prevalidReject s = true) :
    solve_expression s = .ok none := by
  simp [solve_expression, h]

/-- C5: `evaluate` returns invalid, before any parsing, for every
expression string in which two consecutive characters are both
operators, or the string begins with `'0'`, or any operand other than
the very first is the literal value zero or has a leading zero (such an
operand starts with `'0'` right after an operator); in particular
`evaluate "0+50/1"`, `evaluate "50/1+0"` and `evaluate "50-0+2"` are
all invalid. -/
theorem c5_prevalidation_rejects :
    (∀ s : List Char,
      ((∃ l r c d, s = l ++ c :: d :: r ∧ c ∈ ops4 ∧ d ∈ ops4) ∨
       (∃ r, s = '0' :: r) ∨
       (∃ l r c, s = l ++ c :: '0' :: r ∧ c ∈ ops4)) →
      solve_expression s = .ok none) ∧
    solve_expression (strChars "0+50/1") = .ok none ∧
    solve_expression (strChars "50/1+0") = .ok none ∧
    solve_expression (strChars "50-0+2") = .ok none := by
  refine ⟨?_, by decide, by decide, by decide⟩
  intro s h
  apply solve_expression_of_reject
  unfold prevalidReject
  rcases h with ⟨l, r, c, d, rfl, hc, hd⟩ | ⟨r, rfl⟩ | ⟨l, r, c, rfl, hc⟩
  · rw [hasConsecOps_append l r (inOpClass_of_mem_ops4 hc) (inOpClass_of_mem_ops4 hd)]
    simp
  · simp [startsWithZero]
  · rw [hasNonDigitZero_append l r (not_digit_of_mem_ops4 hc)]
    simp

/-- Witness for C5 at the concrete input `"9*0"` (an operand after an
operator that is literally zero). -/
theorem c5_witness : solve_expression (strChars "9*0") = .ok none :=
  c5_prevalidation_rejects.1 _
    (Or.inr (Or.inr ⟨['9'], [], '*', rfl, by decide⟩))

/-- C3 counterexample: under the spec's 1-indexed description the equal
sign should occupy position 4 (0-indexed 3) in some Regular-mode
pattern, since `4 ∈ [4, 8/2 + 3)`; in fact no Regular-mode pattern has
its `=` alphabet at 0-indexed position 3 (they sit at 4, 5, 6). -/
theorem c3_counterexample :
    ((genPatterns GameMode.regular).map
      (fun p => p.findIdx (fun a => a == ['=']))).contains 3 = false := by
  decide

/-- C3 (amended): for `N = 6` the generator returns exactly two patterns
with expression lengths 3, 4 and result lengths 2, 1; for `N = 8`
exactly three patterns with expression lengths 4, 5, 6 and result
lengths 3, 2, 1; every pattern has exactly `N` position alphabets, of
which exactly one is the singleton `{=}`; and for the loop index `e`
ranging over `[4, N/2 + 3)` the equal sign of the corresponding pattern
sits at 0-indexed position `e + (N-8)/2` (1-indexed `4..5` for `N = 6`
but `5..7` for `N = 8`, not `4..(N/2+2)` as the spec says). -/
theorem c3_pattern_shapes :
    (genPatterns GameMode.mini).length = 2 ∧
    (genPatterns GameMode.regular).length = 3 ∧
    (genPatterns GameMode.mini).all (fun p => p.length == elementCount GameMode.mini) = true ∧
    (genPatterns GameMode.regular).all (fun p => p.length == elementCount GameMode.regular) = true ∧
    ((genPatterns GameMode.mini).map (fun p => p.findIdx (fun a => a == ['=']))) = [3, 4] ∧
    ((genPatterns GameMode.regular).map (fun p => p.findIdx (fun a => a == ['=']))) = [4, 5, 6] ∧
    ((genPatterns GameMode.mini).map
      (fun p => p.length - p.findIdx (fun a => a == ['=']) - 1)) = [2, 1] ∧
    ((genPatterns GameMode.regular).map
      (fun p => p.length - p.findIdx (fun a => a == ['=']) - 1)) = [3, 2, 1] ∧
    (genPatterns GameMode.mini).all (fun p => p.countP (fun a => a == ['=']) == 1) = true ∧
    (genPatterns GameMode.regular).all (fun p => p.countP (fun a => a == ['=']) == 1) = true := by
  exact ⟨by decide, by decide, by decide, by decide, by decide, by decide, by decide,
    by decide, by decide, by decide⟩

/-! ### Result-side lemmas -/

theorem lzAfterZeros_iff (t : List Char) :
    lzAfterZeros t = true ↔
      ∃ k c rest, t = List.replicate k '0' ++ c :: rest ∧ '1' ≤ c ∧ c ≤ '9' := by
  induction t with
  | nil =>
    simp [lzAfterZeros]
  | cons x t ih =>
    by_cases hx : x = '0'
    · subst hx
      rw [show lzAfterZeros ('0' :: t) = lzAfterZeros t from rfl, ih]
      constructor
      · rintro ⟨k, c, rest, rfl, h1, h2⟩
        exact ⟨k + 1, c, rest, by simp [List.replicate_succ], h1, h2⟩
      · rintro ⟨k, c, rest, he, h1, h2⟩
        cases k with
        | zero =>
          simp at he
          rcases he with ⟨hc, _⟩
          subst hc
          exact absurd h1 (by decide)
        | succ k =>
          rw [List.replicate_succ] at he
          simp at he
          exact ⟨k, c, rest, he, h1, h2⟩
    · have : lzAfterZeros (x :: t) = ('1' ≤ x && x ≤ '9') := by
        cases t <;> simp [lzAfterZeros, hx]
      rw [this]
      constructor
      · intro h
        simp at h
        exact ⟨0, x, t, by simp, h.1, h.2⟩
      · rintro ⟨k, c, rest, he, h1, h2⟩
        cases k with
        | zero =>
          simp at he
          rcases he with ⟨hc, hr⟩
          subst hc
          simp [h1, h2]
        | succ k =>
          rw [List.replicate_succ] at he
          simp at he
          exact absurd he.1 hx

theorem leadingZeroViol_iff (s : List Char) :
    leadingZeroViol s = true ↔
      ∃ k c rest, s = List.replicate k '0' ++ c :: rest ∧ 1 ≤ k ∧ '1' ≤ c ∧ c ≤ '9' := by
  cases s with
  | nil =>
    simp [leadingZeroViol]
  | cons x t =>
    by_cases hx : x = '0'
    · subst hx
      rw [show leadingZeroViol ('0' :: t) = lzAfterZeros t from rfl, lzAfterZeros_iff]
      constructor
      · rintro ⟨k, c, rest, rfl, h1, h2⟩
        exact ⟨k + 1, c, rest, by simp [List.replicate_succ], by omega, h1, h2⟩
      · rintro ⟨k, c, rest, he, hk, h1, h2⟩
        cases k with
        | zero => omega
        | succ k =>
          rw [List.replicate_succ] at he
          simp at he
          exact ⟨k, c, rest, he, h1, h2⟩
    · have hv : leadingZeroViol (x :: t) = false := by
        cases t <;> simp [leadingZeroViol, hx]
      rw [hv]
      simp
      intro k c rest he hk
      cases k with
      | zero => omega
      | succ k =>
        rw [List.replicate_succ] at he
        simp at he
        exact absurd he.1 hx

theorem toIntOpt_digits (cs : List Char) (h1 : cs ≠ [])
    (h2 : cs.all Char.isDigit = true) :
    toIntOpt cs = some (digitsVal cs) := by
  match cs, h1 with
  | c :: rest, _ =>
    have hc : c.isDigit = true := by
      simp at h2
      exact h2.1
    have hcp : c ≠ '+' := by rintro rfl; simp at hc
    have hcm : c ≠ '-' := by rintro rfl; simp at hc
    rw [toIntOpt.eq_def]
    split
    · simp_all
    · simp_all
    · simp_all
    · rename_i hne1 hne2 hne3
      simp [h2]

/-- C8: on the (non-empty, all-digit) result strings the pipeline feeds
it, `parseResult` returns invalid if and only if the string begins with
one or more `'0'` characters followed by a nonzero digit, and otherwise
returns the integer value of the string; in particular
`parseResult "05"` is invalid, `parseResult "0" = 0` and
`parseResult "500" = 500`. -/
theorem c8_solve_result_leading_zero :
    (∀ s : List Char, s ≠ [] → s.all Char.isDigit = true →
      ((solve_result s = .ok none ↔
          ∃ k c rest, s = List.replicate k '0' ++ c :: rest ∧
            1 ≤ k ∧ '1' ≤ c ∧ c ≤ '9') ∧
        ((¬ ∃ k c rest, s = List.replicate k '0' ++ c :: rest ∧
            1 ≤ k ∧ '1' ≤ c ∧ c ≤ '9') →
          solve_result s = .ok (some (digitsVal s))))) ∧
    solve_result (strChars "05") = .ok none ∧
    solve_result (strChars "0") = .ok (some 0) ∧
    solve_result (strChars "500") = .ok (some 500) := by
  refine ⟨?_, by decide, by decide, by decide⟩
  intro s h1 h2
  by_cases hv : leadingZeroViol s = true
  · have : solve_result s = .ok none := by simp [solve_result, hv]
    rw [this]
    refine ⟨⟨fun _ => (leadingZeroViol_iff s).mp hv, fun _ => rfl⟩, fun hn => ?_⟩
    exact absurd ((leadingZeroViol_iff s).mp hv) hn
  · have hr : solve_result s = .ok (some (digitsVal s)) := by
      simp [solve_result, hv, toIntOpt_digits s h1 h2]
    rw [hr]
    refine ⟨⟨fun h => by simp at h, fun he => ?_⟩, fun _ => rfl⟩
    exact absurd ((leadingZeroViol_iff s).mpr he) hv

/-- Witness for C8 at the concrete input `"10"`. -/
theorem c8_witness :
    solve_result (strChars "10") = .ok none ↔
      ∃ k c rest, strChars "10" = List.replicate k '0' ++ c :: rest ∧
        1 ≤ k ∧ '1' ≤ c ∧ c ≤ '9' :=
  (c8_solve_result_leading_zero.1 (strChars "10") (by decide) (by decide)).1


/-! ### List decomposition helpers for the index-driven loops -/

theorem digitVal_pos {c : Char} (hc : c.isDigit = true) (h0 : c ≠ '0') :
    1 ≤ digitVal c := by
  simp [Char.isDigit] at hc
  obtain ⟨h1, h2⟩ := hc
  have l1 : 48 ≤ c.toNat := h1
  have l3 : c.toNat ≠ 48 := fun h => h0 (Char.eq_of_val_eq (UInt32.ext h))
  have l4 : ('0' : Char).toNat = 48 := by decide
  unfold digitVal
  omega

theorem digitsVal_aux_pos (cs : List Char) (acc : Nat) (h : 1 ≤ acc) :
    1 ≤ cs.foldl (fun a c => a * 10 + digitVal c) acc := by
  induction cs generalizing acc with
  | nil => exact h
  | cons c cs ih =>
    rw [List.foldl_cons]
    apply ih
    show 1 ≤ acc * 10 + digitVal c
    omega

theorem digitsVal_pos {c : Char} (cs : List Char) (hc : c.isDigit = true)
    (h0 : c ≠ '0') : 1 ≤ digitsVal (c :: cs) := by
  have h1 := digitVal_pos hc h0
  unfold digitsVal
  rw [List.foldl_cons]
  apply digitsVal_aux_pos
  show 1 ≤ 0 * 10 + digitVal c
  omega

theorem pair_decomp {α : Type} (ts : List α) (i : Nat) (hi : 1 ≤ i)
    {prev cur : α} (h1 : ts[i - 1]? = some prev) (h2 : ts[i]? = some cur) :
    ∃ t1 t2, ts = t1 ++ prev :: cur :: t2 ∧ t1.length = i - 1 := by
  have hl1 : i - 1 < ts.length := by
    by_contra hc
    simp [List.getElem?_eq_none (Nat.le_of_not_lt hc)] at h1
  have hl2 : i < ts.length := by
    by_contra hc
    simp [List.getElem?_eq_none (Nat.le_of_not_lt hc)] at h2
  refine ⟨ts.take (i - 1), ts.drop (i + 1), ?_,
    by rw [List.length_take]; exact Nat.min_eq_left (Nat.le_of_lt hl1)⟩
  have e1 : ts = ts.take (i - 1) ++ ts.drop (i - 1) := (List.take_append_drop _ _).symm
  have e2 : ts.drop (i - 1) = ts[i - 1] :: ts.drop i := by
    rw [List.drop_eq_getElem_cons hl1, show i - 1 + 1 = i from by omega]
  have e3 : ts.drop i = ts[i] :: ts.drop (i + 1) := List.drop_eq_getElem_cons hl2
  have g1 : ts[i - 1] = prev := by
    have := List.getElem?_eq_getElem hl1
    rw [h1] at this
    exact (Option.some_inj.mp this).symm
  have g2 : ts[i] = cur := by
    have := List.getElem?_eq_getElem hl2
    rw [h2] at this
    exact (Option.some_inj.mp this).symm
  conv_lhs => rw [e1, e2, e3]
  rw [g1, g2]

theorem set_erase_decomp {α : Type} (t1 : List α) (prev cur m : α) (t2 : List α)
    (i : Nat) (hi : 1 ≤ i) (hlen : t1.length = i - 1) :
    ((t1 ++ prev :: cur :: t2).set (i - 1) m).eraseIdx i = t1 ++ m :: t2 := by
  induction t1 generalizing i with
  | nil =>
    have hiv : i = 1 := by simp at hlen; omega
    subst hiv
    rfl
  | cons x t1 ih =>
    have h2 : 2 ≤ i := by simp at hlen; omega
    obtain ⟨j, rfl⟩ : ∃ j, i = j + 2 := ⟨i - 2, by omega⟩
    have hl' : t1.length = (j + 1) - 1 := by simp at hlen; omega
    have step := ih (j + 1) (by omega) hl'
    simp only [Nat.add_sub_cancel] at step
    show x :: ((t1 ++ prev :: cur :: t2).set j m).eraseIdx (j + 1) = x :: t1 ++ m :: t2
    rw [step]
    rfl

theorem triple_decomp {α : Type} (ts : List α) (i : Nat) (hi : 1 ≤ i)
    {a cur b : α} (h1 : ts[i - 1]? = some a) (h2 : ts[i]? = some cur)
    (h3 : ts[i + 1]? = some b) :
    ∃ t1 t2, ts = t1 ++ a :: cur :: b :: t2 ∧ t1.length = i - 1 := by
  obtain ⟨t1, t2, he, hl⟩ := pair_decomp ts i hi h1 h2
  cases t2 with
  | nil =>
    subst he
    have : (t1 ++ [a, cur])[i + 1]? = none := by
      apply List.getElem?_eq_none
      simp
      omega
    rw [this] at h3
    exact absurd h3 (by simp)
  | cons b' t2 =>
    refine ⟨t1, t2, ?_, hl⟩
    have hb : b' = b := by
      subst he
      have : (t1 ++ a :: cur :: b' :: t2)[i + 1]? = some b' := by
        rw [List.getElem?_append_right (by omega)]
        rw [show i + 1 - t1.length = 2 from by omega]
        simp
      rw [this] at h3
      exact Option.some_inj.mp h3
    rw [he, hb]

theorem set_erase2_decomp {α : Type} (t1 : List α) (a cur b m : α) (t2 : List α)
    (i : Nat) (hi : 1 ≤ i) (hlen : t1.length = i - 1) :
    (((t1 ++ a :: cur :: b :: t2).set (i - 1) m).eraseIdx i).eraseIdx i =
      t1 ++ m :: t2 := by
  induction t1 generalizing i with
  | nil =>
    have hiv : i = 1 := by simp at hlen; omega
    subst hiv
    rfl
  | cons x t1 ih =>
    have h2 : 2 ≤ i := by simp at hlen; omega
    obtain ⟨j, rfl⟩ : ∃ j, i = j + 2 := ⟨i - 2, by omega⟩
    have hl' : t1.length = (j + 1) - 1 := by simp at hlen; omega
    have step := ih (j + 1) (by omega) hl'
    simp only [Nat.add_sub_cancel] at step
    show x :: (((t1 ++ a :: cur :: b :: t2).set j m).eraseIdx (j + 1)).eraseIdx (j + 1) =
      x :: t1 ++ m :: t2
    rw [step]
    rfl

/-! ### Invariants carried from pre-validation to the division step -/

theorem hasNonDigitZero_tail {x : Char} {r : List Char}
    (h : hasNonDigitZero (x :: r) = false) : hasNonDigitZero r = false := by
  cases r with
  | nil => rfl
  | cons y r' =>
    simp [hasNonDigitZero] at h ⊢
    tauto

theorem hasNonDigitZero_head {x y : Char} {r : List Char}
    (h : hasNonDigitZero (x :: y :: r) = false) (hx : x.isDigit = false) :
    y ≠ '0' := by
  simp [hasNonDigitZero, hx] at h
  exact h.1

theorem toIntOpt_single_nondigit {c : Char} (hc : c.isDigit = false) :
    toIntOpt [c] = none := by
  rw [toIntOpt.eq_def]
  split <;> simp_all

theorem digitsVal_ne_zero {c : Char} {cs : List Char} (hc : c.isDigit = true)
    (h0 : c ≠ '0') : (digitsVal (c :: cs) : Int) ≠ 0 := by
  have := digitsVal_pos cs hc h0
  omega

theorem run_toIntOpt_ne_zero {c : Char} {cs : List Char}
    (hall : (c :: cs).all Char.isDigit = true) (h0 : c ≠ '0') :
    ∀ z : Int, toIntOpt (c :: cs) = some z → z ≠ 0 := by
  intro z hz
  have hc : c.isDigit = true := by simp at hall; exact hall.1
  rw [toIntOpt_digits _ (by simp) hall] at hz
  have := Option.some_inj.mp hz
  subst this
  exact digitsVal_ne_zero hc h0

theorem joinNumsAux_first (cs : List Char) : ∀ temp : List Char,
    ((joinNumsAux temp cs).head?.bind List.head?) = (temp ++ cs).head? := by
  induction cs with
  | nil => intro temp; simp [joinNumsAux]
  | cons c cs ih =>
    intro temp
    by_cases hc : c.isDigit
    · rw [show joinNumsAux temp (c :: cs) = joinNumsAux (temp ++ [c]) cs from by
        simp [joinNumsAux, hc]]
      rw [ih (temp ++ [c])]
      cases temp <;> simp
    · by_cases ht : temp = []
      · subst ht
        rw [show joinNumsAux [] (c :: cs) = [c] :: joinNumsAux [] cs from by
          simp [joinNumsAux, hc]]
        simp
      · rw [show joinNumsAux temp (c :: cs) = temp :: [c] :: joinNumsAux [] cs from by
          simp [joinNumsAux, hc, ht]]
        cases temp with
        | nil => exact absurd rfl ht
        | cons a t => simp

theorem joinNumsAux_inv (cs : List Char) : ∀ temp : List Char,
    temp.all Char.isDigit = true →
    temp.head? ≠ some '0' →
    (temp = [] → cs.head? ≠ some '0') →
    hasNonDigitZero cs = false →
    NoZeroTok (joinNumsAux temp cs) ∧ SignZero (joinNumsAux temp cs) ∧
      EmptyLast (joinNumsAux temp cs) := by
  induction cs with
  | nil =>
    intro temp htd hth _ _
    refine ⟨?_, ?_, ?_⟩
    · intro t ht z hz
      have hEq : t = temp := by simpa [joinNumsAux] using ht
      rw [hEq] at hz
      cases temp with
      | nil => simp [toIntOpt] at hz
      | cons c cs' =>
        exact run_toIntOpt_ne_zero htd (fun h => hth (by rw [h]; rfl)) z hz
    · exact List.chain'_singleton _
    · intro j hj
      cases j with
      | zero => simp [joinNumsAux]
      | succ j => simp [joinNumsAux] at hj
  | cons c cs ih =>
    intro temp htd hth hbz hnz
    by_cases hc : c.isDigit
    · rw [show joinNumsAux temp (c :: cs) = joinNumsAux (temp ++ [c]) cs from by
        simp [joinNumsAux, hc]]
      apply ih
      · simp at htd ⊢
        exact ⟨htd, hc⟩
      · cases temp with
        | nil =>
          simp
          intro h
          exact hbz rfl (by rw [h]; rfl)
        | cons a t => simpa using hth
      · intro h
        exact absurd h (by simp)
      · exact hasNonDigitZero_tail hnz
    · have hcs0 : cs.head? ≠ some '0' := by
        cases cs with
        | nil => simp
        | cons d cs' =>
          have := hasNonDigitZero_head hnz (by simpa using hc)
          simpa using this
      by_cases ht0 : temp = []
      · subst ht0
        rw [show joinNumsAux [] (c :: cs) = [c] :: joinNumsAux [] cs from by
          simp [joinNumsAux, hc]]
        obtain ⟨k1, k2, k3⟩ :=
          ih [] (by simp) (by simp) (fun _ => hcs0) (hasNonDigitZero_tail hnz)
        refine ⟨?_, ?_, ?_⟩
        · intro t ht z hz
          rcases List.mem_cons.mp ht with rfl | ht'
          · rw [toIntOpt_single_nondigit (by simpa using hc)] at hz
            exact absurd hz (by simp)
          · exact k1 t ht' z hz
        · refine List.chain'_cons'.mpr ⟨?_, k2⟩
          intro y hy _
          have hne : joinNumsAux [] cs ≠ [] := by
            intro hnil
            rw [hnil] at hy
            simp at hy
          have hfc := joinNumsAux_first cs []
          rw [List.head?_eq_head hne] at hfc
          simp at hfc
          have hy' : y = (joinNumsAux [] cs).head hne := by
            rw [List.head?_eq_head hne] at hy
            exact (by simpa using hy : _ = y).symm
          rw [hy', hfc]
          exact hcs0
        · intro j hj
          cases j with
          | zero =>
            simp at hj
          | succ j =>
            simp only [List.getElem?_cons_succ] at hj
            have := k3 j hj
            simp [this]
      · rw [show joinNumsAux temp (c :: cs) = temp :: [c] :: joinNumsAux [] cs from by
          simp [joinNumsAux, hc, ht0]]
        obtain ⟨k1, k2, k3⟩ :=
          ih [] (by simp) (by simp) (fun _ => hcs0) (hasNonDigitZero_tail hnz)
        have htempnum : ∀ z : Int, toIntOpt temp = some z → z ≠ 0 := by
          cases temp with
          | nil => exact absurd rfl ht0
          | cons a t =>
            exact run_toIntOpt_ne_zero htd (fun h => hth (by rw [h]; rfl))
        refine ⟨?_, ?_, ?_⟩
        · intro t ht z hz
          rcases List.mem_cons.mp ht with rfl | ht'
          · exact htempnum z hz
          rcases List.mem_cons.mp ht' with rfl | ht''
          · rw [toIntOpt_single_nondigit (by simpa using hc)] at hz
            exact absurd hz (by simp)
          · exact k1 t ht'' z hz
        · refine List.chain'_cons'.mpr ⟨?_, ?_⟩
          · intro y _ habs
            rcases habs with h | h <;>
              · rw [h] at htd
                simp at htd
          · refine List.chain'_cons'.mpr ⟨?_, k2⟩
            intro y hy _
            have hne : joinNumsAux [] cs ≠ [] := by
              intro hnil
              rw [hnil] at hy
              simp at hy
            have hfc := joinNumsAux_first cs []
            rw [List.head?_eq_head hne] at hfc
            simp at hfc
            have hy' : y = (joinNumsAux [] cs).head hne := by
              rw [List.head?_eq_head hne] at hy
              exact (by simpa using hy : _ = y).symm
            rw [hy', hfc]
            exact hcs0
        · intro j hj
          cases j with
          | zero =>
            simp at hj
            exact absurd hj ht0
          | succ j =>
            cases j with
            | zero => simp at hj
            | succ j =>
              simp only [List.getElem?_cons_succ] at hj
              have := k3 j hj
              simp [this]

theorem getAppL {α : Type} (t1 : List α) (x : α) (t2 : List α) (j : Nat)
    (hj : j < t1.length) : (t1 ++ x :: t2)[j]? = t1[j]? := by
  induction t1 generalizing j with
  | nil => simp at hj
  | cons a t1 ih =>
    cases j with
    | zero => simp
    | succ j =>
      simp only [List.cons_append, List.getElem?_cons_succ]
      exact ih j (by simpa using hj)

theorem getAppE {α : Type} (t1 : List α) (x : α) (t2 : List α) :
    (t1 ++ x :: t2)[t1.length]? = some x := by
  induction t1 with
  | nil => simp
  | cons a t1 ih => simpa using ih

theorem getAppR {α : Type} (t1 : List α) (x : α) (t2 : List α) (j : Nat)
    (hj : t1.length < j) : (t1 ++ x :: t2)[j]? = t2[j - t1.length - 1]? := by
  induction t1 generalizing j with
  | nil =>
    cases j with
    | zero => simp at hj
    | succ j => simp
  | cons a t1 ih =>
    cases j with
    | zero => simp at hj
    | succ j =>
      simp only [List.cons_append, List.getElem?_cons_succ]
      rw [ih j (by simpa using hj)]
      congr 1
      simp only [List.length_cons]
      omega

theorem inPM_cases {p : List Char} (h : inPM p = true) :
    p = [] ∨ p = ['+'] ∨ p = ['-'] ∨ p = ['+', '-'] := by
  rw [inPM.eq_def] at h
  split at h <;> simp_all

theorem toIntOpt_sign {sgn : Char} (hs : sgn = '+' ∨ sgn = '-')
    {cur : List Char} {z : Int} (h : toIntOpt (sgn :: cur) = some z) :
    cur ≠ [] ∧ cur.all Char.isDigit = true ∧
      (z = digitsVal cur ∨ z = -(digitsVal cur : Int)) := by
  rcases hs with rfl | rfl <;>
  · simp [toIntOpt] at h
    obtain ⟨hne, hall, hz⟩ := h
    refine ⟨hne, by simpa using hall, by omega⟩

theorem merge_inv {ts : List (List Char)} {i : Nat} (hi : 1 ≤ i)
    {prev cur : List Char}
    (hprev : ts[i - 1]? = some prev) (hcur : ts[i]? = some cur)
    (hsign : prev = ['+'] ∨ prev = ['-'] ∨ prev = ['+', '-'])
    (k1 : NoZeroTok ts) (k2 : SignZero ts) (k3 : EmptyLast ts) :
    NoZeroTok ((ts.set (i - 1) (prev ++ cur)).eraseIdx i) ∧
      SignZero ((ts.set (i - 1) (prev ++ cur)).eraseIdx i) ∧
      EmptyLast ((ts.set (i - 1) (prev ++ cur)).eraseIdx i) := by
  obtain ⟨t1, t2, hdec, hlen⟩ := pair_decomp ts i hi hprev hcur
  subst hdec
  rw [set_erase_decomp t1 prev cur (prev ++ cur) t2 i hi hlen]
  have hlen2 : (t1 ++ prev :: cur :: t2).length = i + 1 + t2.length := by
    simp
    omega
  have hk2 := k2
  rw [SignZero, List.chain'_append] at hk2
  obtain ⟨hch1, hch2, hchx⟩ := hk2
  have hrel : (prev = ['+'] ∨ prev = ['-']) → cur.head? ≠ some '0' :=
    (List.chain'_cons.mp hch2).1
  refine ⟨?_, ?_, ?_⟩
  · intro t ht z hz
    rcases List.mem_append.mp ht with h1 | h2
    · exact k1 t (by simp [List.mem_append]; tauto) z hz
    rcases List.mem_cons.mp h2 with rfl | h3
    · rcases hsign with hpv | hpv | hpv
      · subst hpv
        obtain ⟨hne, hall, hzv⟩ := toIntOpt_sign (Or.inl rfl) hz
        cases cur with
        | nil => exact absurd rfl hne
        | cons d cs' =>
          have hd0 : d ≠ '0' := by
            have := hrel (Or.inl rfl)
            simpa using this
          have hdd : d.isDigit = true := by simp at hall; exact hall.1
          have hpos := digitsVal_pos cs' hdd hd0
          have hredux : digitsVal ([].append (d :: cs')) = digitsVal (d :: cs') := rfl
          rcases hzv with rfl | rfl <;> omega
      · subst hpv
        obtain ⟨hne, hall, hzv⟩ := toIntOpt_sign (Or.inr rfl) hz
        cases cur with
        | nil => exact absurd rfl hne
        | cons d cs' =>
          have hd0 : d ≠ '0' := by
            have := hrel (Or.inr rfl)
            simpa using this
          have hdd : d.isDigit = true := by simp at hall; exact hall.1
          have hpos := digitsVal_pos cs' hdd hd0
          have hredux : digitsVal ([].append (d :: cs')) = digitsVal (d :: cs') := rfl
          rcases hzv with rfl | rfl <;> omega
      · subst hpv
        exfalso
        have hnone : toIntOpt ('+' :: '-' :: cur) = none := by
          simp [toIntOpt]
        rw [show (['+', '-'] ++ cur) = '+' :: '-' :: cur from rfl, hnone] at hz
        simp at hz
    · exact k1 t (by simp [List.mem_append]; tauto) z hz
  · rw [SignZero, List.chain'_append]
    refine ⟨hch1, ?_, ?_⟩
    · refine List.chain'_cons'.mpr ⟨?_, ((List.chain'_cons.mp hch2).2).tail⟩
      intro y hy hm
      cases cur with
      | nil =>
        have hk := k3 i hcur
        rw [hlen2] at hk
        have ht2 : t2 = [] := List.length_eq_zero.mp (by omega)
        subst ht2
        simp at hy
      | cons e cur' =>
        exfalso
        rcases hsign with rfl | rfl | rfl <;> rcases hm with hm | hm <;> simp at hm
    · intro x hx y hy
      have hyv : y = prev ++ cur := by
        exact (by simpa using hy : prev ++ cur = y).symm
      subst hyv
      intro hxsign
      rcases hsign with rfl | rfl | rfl <;> simp
  · intro j hj
    rcases Nat.lt_trichotomy j (i - 1) with hlt | heq | hgt
    · rw [getAppL t1 _ t2 j (by omega)] at hj
      have hts : (t1 ++ prev :: cur :: t2)[j]? = some [] := by
        rw [getAppL t1 _ _ j (by omega)]
        exact hj
      have := k3 j hts
      rw [hlen2] at this
      omega
    · exfalso
      rw [show j = t1.length from by omega, getAppE] at hj
      have : prev ++ cur = [] := by simpa using hj
      rcases hsign with rfl | rfl | rfl <;> simp at this
    · rw [getAppR t1 _ t2 j (by omega)] at hj
      rw [show j - t1.length - 1 = j - i from by omega] at hj
      have hts : (t1 ++ prev :: cur :: t2)[j + 1]? = some [] := by
        rw [getAppR t1 _ _ (j + 1) (by omega)]
        rw [show j + 1 - t1.length - 1 = (j - i) + 1 from by omega]
        rw [List.getElem?_cons_succ]
        exact hj
      have := k3 (j + 1) hts
      rw [hlen2] at this
      have hnl : (t1 ++ (prev ++ cur) :: t2).length = i + t2.length := by
        simp
        omega
      rw [hnl]
      omega

theorem signJoinF_pres (fuel : Nat) : ∀ (ts : List (List Char)) (i : Nat),
    1 ≤ i → NoZeroTok ts → SignZero ts → EmptyLast ts →
    ∀ ts2, signJoinF fuel ts i = .ok ts2 → NoZeroTok ts2 := by
  induction fuel with
  | zero =>
    intro ts i _ k1 _ _ ts2 h
    unfold signJoinF at h
    split at h
    · exact absurd h (by simp)
    · cases h
      exact k1
  | succ fuel ih =>
    intro ts i hi k1 k2 k3 ts2 h
    unfold signJoinF at h
    split at h
    · split at h
      · exact absurd h (by simp)
      · rename_i prev hprev
        split at h
        · rename_i hpm
          split at h
          · exact absurd h (by simp)
          · rename_i cur hcur
            rcases inPM_cases hpm with rfl | hsg | hsg | hsg
            · exfalso
              have hk := k3 (i - 1) hprev
              have : i < ts.length := by
                by_contra hc
                rw [List.getElem?_eq_none (Nat.le_of_not_lt hc)] at hcur
                exact absurd hcur (by simp)
              omega
            all_goals
              obtain ⟨m1, m2, m3⟩ :=
                merge_inv hi hprev hcur (by tauto) k1 k2 k3
              exact ih _ (i + 1) (by omega) m1 m2 m3 ts2 h
        · exact ih ts (i + 1) (by omega) k1 k2 k3 ts2 h
    · cases h
      exact k1

theorem startsWithZero_head {s : List Char} (h : startsWithZero s = false) :
    s.head? ≠ some '0' := by
  cases s with
  | nil => simp
  | cons c r =>
    intro hc
    have : c = '0' := by simpa using hc
    subst this
    simp [startsWithZero] at h

theorem joinNums_inv {s : List Char} (h : prevalidReject s = false) :
    NoZeroTok (joinNums s) ∧ SignZero (joinNums s) ∧ EmptyLast (joinNums s) := by
  have hp := h
  simp [prevalidReject] at hp
  exact joinNumsAux_inv s [] (by simp) (by simp)
    (fun _ => startsWithZero_head hp.1.2) hp.2

theorem signJoin_pres {ts : List (List Char)}
    (k1 : NoZeroTok ts) (k2 : SignZero ts) (k3 : EmptyLast ts)
    {ts2 : List (List Char)} (h : signJoin ts = .ok ts2) : NoZeroTok ts2 :=
  signJoinF_pres (ts.length + 1) ts 1 (by omega) k1 k2 k3 ts2 h

theorem signJoinF_error (fuel : Nat) : ∀ (ts : List (List Char)) (i : Nat) (f : Fault),
    signJoinF fuel ts i = .error f → f = .indexError := by
  induction fuel with
  | zero =>
    intro ts i f h
    unfold signJoinF at h
    split at h
    · cases h
      rfl
    · exact absurd h (by simp)
  | succ fuel ih =>
    intro ts i f h
    unfold signJoinF at h
    split at h
    · split at h
      · cases h
        rfl
      · split at h
        · split at h
          · cases h
            rfl
          · exact ih _ _ _ h
        · exact ih _ _ _ h
    · exact absurd h (by simp)

theorem goodNum_map_toTok {ts : List (List Char)} (h : NoZeroTok ts) :
    GoodNum (ts.map toTok) := by
  intro f hf
  obtain ⟨t, ht, htt⟩ := List.mem_map.mp hf
  unfold toTok at htt
  split at htt
  · rename_i z hz
    have hzz : z ≠ 0 := h t ht z hz
    have : Frac.ofInt z = f := by simpa using htt
    subst this
    exact ⟨hzz, by simp [Frac.ofInt]⟩
  · exact absurd htt (by simp)

theorem applyOp_divzero {isDiv : Bool} {a b : Tok}
    (h : applyOp isDiv a b = .error .divByZero) :
    ∃ y : Frac, b = .num y ∧ y.num = 0 := by
  unfold applyOp at h
  split at h
  · rename_i x y
    cases hdv : isDiv with
    | false =>
      rw [hdv] at h
      simp at h
    | true =>
      rw [hdv] at h
      by_cases hy0 : y.num = 0
      · exact ⟨y, rfl, hy0⟩
      · simp [hy0] at h
  · simp at h

theorem applyOp_good {isDiv : Bool} {a b v : Tok} (h : applyOp isDiv a b = .ok v)
    (ha : ∀ x : Frac, a = .num x → x.num ≠ 0 ∧ x.den ≠ 0)
    (hb : ∀ y : Frac, b = .num y → y.num ≠ 0 ∧ y.den ≠ 0) :
    ∀ f : Frac, v = .num f → f.num ≠ 0 ∧ f.den ≠ 0 := by
  unfold applyOp at h
  split at h
  · rename_i x y
    obtain ⟨hx1, hx2⟩ := ha x rfl
    obtain ⟨hy1, hy2⟩ := hb y rfl
    intro f hf
    cases hdv : isDiv with
    | false =>
      rw [hdv] at h
      simp at h
      rw [← h] at hf
      have : f = x.mul y := by simpa using hf.symm
      subst this
      constructor
      · simp [Frac.mul]
        exact ⟨hx1, hy1⟩
      · simp [Frac.mul]
        exact ⟨hx2, hy2⟩
    | true =>
      rw [hdv] at h
      by_cases hy0 : y.num = 0
      · simp [hy0] at h
      · simp [hy0] at h
        rw [← h] at hf
        have : f = x.div y := by simpa using hf.symm
        subst this
        constructor
        · simp [Frac.div]
          exact ⟨hx1, hy2⟩
        · simp [Frac.div]
          exact ⟨hx2, hy0⟩
  · simp at h

theorem good_update {ts : List Tok} {v : Tok} (i : Nat) (g : GoodNum ts)
    (hv : ∀ f : Frac, v = Tok.num f → f.num ≠ 0 ∧ f.den ≠ 0) :
    GoodNum (((ts.set (i - 1) v).eraseIdx i).eraseIdx i) := by
  intro f hf
  have h1 := List.mem_of_mem_eraseIdx (List.mem_of_mem_eraseIdx hf)
  rcases List.mem_or_eq_of_mem_set h1 with hin | heqv
  · exact g f hin
  · exact hv f heqv.symm

theorem multDivF_good (fuel : Nat) : ∀ (ts : List Tok) (i : Nat),
    1 ≤ i → GoodNum ts →
    (multDivF fuel ts i ≠ .error .divByZero) ∧
      (∀ ts2, multDivF fuel ts i = .ok ts2 → GoodNum ts2) := by
  induction fuel with
  | zero =>
    intro ts i _ g
    constructor
    · unfold multDivF
      split <;> simp
    · intro ts2 h
      unfold multDivF at h
      split at h
      · exact absurd h (by simp)
      · cases h
        exact g
  | succ fuel ih =>
    intro ts i hi g
    have main : ∀ r, multDivF (fuel + 1) ts i = r →
        r ≠ .error .divByZero ∧ (∀ ts2, r = .ok ts2 → GoodNum ts2) := by
      intro r h
      unfold multDivF at h
      split at h
      · split at h
        · exact ⟨by rw [← h]; simp, by rw [← h]; simp⟩
        · rename_i cur hcur
          split at h
          · split at h
            · rename_i a b ha hb
              split at h
              · rename_i f happ
                subst h
                refine ⟨?_, by simp⟩
                intro hdz
                have : f = Fault.divByZero := by
                  have := congrArg (fun r => match r with
                    | Except.error e => e
                    | _ => Fault.typeError) hdz
                  simpa using this
                subst this
                obtain ⟨y, hby, hy0⟩ := applyOp_divzero happ
                rw [hby] at hb
                exact absurd hy0 (g y (List.getElem?_mem hb)).1
              · rename_i v happ
                have hgv := applyOp_good happ
                  (fun x hx => g x (by rw [hx] at ha; exact List.getElem?_mem ha))
                  (fun y hy => g y (by rw [hy] at hb; exact List.getElem?_mem hb))
                have g2 := good_update i g hgv
                rw [← h]
                exact ih _ i hi g2
            · subst h
              exact ⟨by simp, by simp⟩
          · rw [← h]
            exact ih ts (i + 1) (by omega) g
      · subst h
        exact ⟨by simp, fun ts2 h2 => by cases h2; exact g⟩
    exact ⟨(main _ rfl).1, (main _ rfl).2⟩

theorem sumToks_error : ∀ (ts : List Tok) (f : Fault),
    sumToks ts = .error f → f = .typeError := by
  intro ts
  induction ts with
  | nil => intro f h; simp [sumToks] at h
  | cons t rest ih =>
    intro f h
    cases t with
    | str cs =>
      have : f = Fault.typeError := by
        have := h
        unfold sumToks at this
        simpa using this.symm
      exact this
    | num q =>
      unfold sumToks at h
      cases hr : sumToks rest with
      | error f2 =>
        rw [hr] at h
        cases h
        exact ih _ hr
      | ok s =>
        rw [hr] at h
        exact absurd h (by simp)

theorem multDiv_good {ts : List Tok} (g : GoodNum ts) :
    (multDiv ts ≠ .error .divByZero) ∧
      (∀ ts2, multDiv ts = .ok ts2 → GoodNum ts2) :=
  multDivF_good ts.length ts 1 (by omega) g

/-- Division by zero is unreachable in `solve_expression`: no token that
reaches the division step can be a zero number. -/
theorem solve_expression_no_divzero (s : List Char) :
    solve_expression s ≠ .error .divByZero := by
  intro h
  unfold solve_expression at h
  split at h
  · exact absurd h (by simp)
  · rename_i hpv
    have hpv' : prevalidReject s = false := by
      simpa using hpv
    obtain ⟨k1, k2, k3⟩ := joinNums_inv hpv'
    split at h
    · rename_i f hsj
      cases h
      exact absurd (signJoinF_error _ _ _ _ hsj) (by simp)
    · rename_i ts1 hsj
      have g1 : GoodNum (ts1.map toTok) :=
        goodNum_map_toTok (signJoin_pres k1 k2 k3 hsj)
      split at h
      · rename_i f hmd
        cases h
        exact absurd hmd (multDiv_good g1).1
      · rename_i ts2 hmd
        split at h
        · exact absurd h (by simp)
        · split at h
          · rename_i f hst
            cases h
            exact absurd (sumToks_error _ _ hst) (by simp)
          · exact absurd h (by simp)

/-- C6: for every expression string, a division by zero during
precedence resolution yields `invalid` rather than a fault — the
pre-validation makes a zero divisor unreachable, so `evaluate` never
raises a ZeroDivisionError; in particular `evaluate "1+2/00"` and
`evaluate "2/0*10"` are invalid (rejected before the division step). -/
theorem c6_division_by_zero_safe :
    (∀ s : List Char, solve_expression s ≠ .error Fault.divByZero) ∧
    solve_expression (strChars "1+2/00") = .ok none ∧
    solve_expression (strChars "2/0*10") = .ok none :=
  ⟨solve_expression_no_divzero, by decide, by decide⟩

/-- Witness for C6 at the concrete input `"8/2+1"` (a genuine division,
executed without fault). -/
theorem c6_witness :
    solve_expression (strChars "8/2+1") ≠ .error Fault.divByZero ∧
      solve_expression (strChars "8/2+1") = .ok (some 5) :=
  ⟨c6_division_by_zero_safe.1 (strChars "8/2+1"), by decide⟩

/-! ### Token shape machinery: totality on well-formed expressions -/

theorem hasConsecOps_tail {x : Char} {r : List Char}
    (h : hasConsecOps (x :: r) = false) : hasConsecOps r = false := by
  cases r with
  | nil => rfl
  | cons y r' =>
    simp [hasConsecOps] at h ⊢
    tauto

theorem hasConsecOps_head {x y : Char} {r : List Char}
    (h : hasConsecOps (x :: y :: r) = false) (hx : inOpClass x = true) :
    inOpClass y = false := by
  simp [hasConsecOps, hx] at h
  exact h.1

theorem run_numTok {t : List Char} (h : StrRun t) : NumTok t := by
  obtain ⟨h1, h2⟩ := h
  unfold NumTok
  rw [toIntOpt_digits t h1 h2]
  rfl

theorem sign_run_numTok {c : Char} (hc : c = '+' ∨ c = '-') {r : List Char}
    (h : StrRun r) : NumTok (c :: r) := by
  obtain ⟨h1, h2⟩ := h
  unfold NumTok
  rcases hc with rfl | rfl <;> simp [toIntOpt, h1, h2]

theorem mdTok_not_numTok {t : List Char} (h : MDTok t) : ¬ NumTok t := by
  rcases h with rfl | rfl <;> simp [NumTok, toIntOpt]

theorem run_not_inPM {t : List Char} (h : StrRun t) : inPM t = false := by
  obtain ⟨h1, h2⟩ := h
  by_contra hc
  have hc' : inPM t = true := by
    cases hp : inPM t
    · exact absurd hp hc
    · rfl
  rcases inPM_cases hc' with rfl | rfl | rfl | rfl
  · exact h1 rfl
  all_goals simp at h2

theorem joinNumsAux_shape (rest : List Char) : ∀ temp : List Char,
    (∀ c ∈ rest, c.isDigit = true ∨ c ∈ ops4) →
    hasConsecOps rest = false →
    (∀ d, rest.getLast? = some d → d.isDigit = true) →
    ((temp ≠ [] ∧ temp.all Char.isDigit = true) ∨
      (temp = [] ∧ ∃ d rest', rest = d :: rest' ∧ d.isDigit = true)) →
    TokShape true (joinNumsAux temp rest) := by
  induction rest with
  | nil =>
    intro temp _ _ _ hst
    rcases hst with ⟨h1, h2⟩ | ⟨_, d, rest', habs, _⟩
    · exact TokShape.run ⟨h1, h2⟩ TokShape.nil
    · exact absurd habs (by simp)
  | cons c cs ih =>
    intro temp hchars hcons hlast hst
    by_cases hc : c.isDigit
    · rw [show joinNumsAux temp (c :: cs) = joinNumsAux (temp ++ [c]) cs from by
        simp [joinNumsAux, hc]]
      apply ih (temp ++ [c])
      · intro x hx
        exact hchars x (List.mem_cons_of_mem c hx)
      · exact hasConsecOps_tail hcons
      · intro d hd
        apply hlast
        cases cs with
        | nil => simp at hd
        | cons e cs' => rw [List.getLast?_cons_cons]; exact hd
      · left
        refine ⟨by simp, ?_⟩
        rcases hst with ⟨h1, h2⟩ | ⟨rfl, _⟩
        · simp [hc]
          intro x hx
          simp [List.all_eq_true] at h2
          exact h2 x hx
        · simp [hc]
    · -- c is an operator
      have hcop : c ∈ ops4 := by
        rcases hchars c (List.mem_cons_self c cs) with hd | ho
        · exact absurd hd (by simpa using hc)
        · exact ho
      have htne : temp ≠ [] ∧ temp.all Char.isDigit = true := by
        rcases hst with h | ⟨_, d, rest', he, hd⟩
        · exact h
        · exfalso
          have hcd : c = d := by
            have := he
            simp at this
            exact this.1
          rw [hcd] at hc
          exact hc hd
      obtain ⟨ht1, ht2⟩ := htne
      rw [show joinNumsAux temp (c :: cs) = temp :: [c] :: joinNumsAux [] cs from by
        simp [joinNumsAux, hc, ht1]]
      have hcs_ne : cs ≠ [] := by
        intro hnil
        subst hnil
        have := hlast c (by simp)
        exact absurd this (by simpa using hc)
      obtain ⟨e, cs', rfl⟩ : ∃ e cs', cs = e :: cs' := by
        cases cs with
        | nil => exact absurd rfl hcs_ne
        | cons e cs' => exact ⟨e, cs', rfl⟩
      have he_digit : e.isDigit = true := by
        have hne : inOpClass e = false :=
          hasConsecOps_head hcons (inOpClass_of_mem_ops4 hcop)
        rcases hchars e (by simp) with hd | ho
        · exact hd
        · exact absurd (inOpClass_of_mem_ops4 ho) (by simp [hne])
      refine TokShape.run ⟨ht1, ht2⟩ (TokShape.op hcop ?_)
      apply ih []
      · intro x hx
        exact hchars x (List.mem_cons_of_mem c hx)
      · exact hasConsecOps_tail hcons
      · intro d hd
        apply hlast
        rw [List.getLast?_cons_cons]
        exact hd
      · right
        exact ⟨rfl, e, cs', rfl, he_digit⟩

theorem joinNums_shape {s : List Char} (h1 : s ≠ [])
    (h2 : ∀ c ∈ s, c.isDigit = true ∨ c ∈ ops4)
    (h3 : ∀ d, s.head? = some d → d.isDigit = true)
    (h4 : ∀ d, s.getLast? = some d → d.isDigit = true)
    (h5 : hasConsecOps s = false) :
    TokShape true (joinNums s) := by
  apply joinNumsAux_shape s [] h2 h5 h4
  right
  refine ⟨rfl, ?_⟩
  cases s with
  | nil => exact absurd rfl h1
  | cons d s' => exact ⟨d, s', rfl, h3 d rfl⟩

theorem run_not_md {t : List Char} (h : StrRun t) : ¬ MDTok t := by
  obtain ⟨_, h2⟩ := h
  rintro (rfl | rfl) <;> simp at h2

theorem tokShape_tokens {b : Bool} {ts : List (List Char)} (h : TokShape b ts) :
    ∀ t ∈ ts, StrRun t ∨ ∃ c, t = [c] ∧ c ∈ ops4 := by
  induction h with
  | nil => simp
  | run hr _ ih =>
    intro t ht
    rcases List.mem_cons.mp ht with rfl | ht'
    · exact Or.inl hr
    · exact ih t ht'
  | op hc _ ih =>
    intro t ht
    rcases List.mem_cons.mp ht with rfl | ht'
    · exact Or.inr ⟨_, rfl, hc⟩
    · exact ih t ht'

theorem tokShape_chain {b : Bool} {ts : List (List Char)} (h : TokShape b ts) :
    List.Chain' (fun a b => ¬(MDTok a ∧ MDTok b)) ts := by
  induction h with
  | nil => simp
  | run hr _ ih =>
    refine List.chain'_cons'.mpr ⟨?_, ih⟩
    intro y _ hmd
    exact run_not_md hr hmd.1
  | op hc hrest ih =>
    refine List.chain'_cons'.mpr ⟨?_, ih⟩
    intro y hy hmd
    cases hrest with
    | run hr _ =>
      have hy' : y = _ := (by simpa using hy : _ = y).symm
      rw [hy'] at hmd
      exact run_not_md hr hmd.2

theorem tokShape_last_run {b : Bool} {ts : List (List Char)} (h : TokShape b ts) :
    ∀ t, ts.getLast? = some t → StrRun t := by
  induction h with
  | nil => simp
  | run hr hrest ih =>
    rename_i r rest
    intro t ht
    cases rest with
    | nil =>
      have hteq : r = t := by simpa using ht
      rw [← hteq]
      exact hr
    | cons u rest' =>
      rw [List.getLast?_cons_cons] at ht
      exact ih t ht
  | op hc hrest ih =>
    rename_i c rest
    intro t ht
    cases hrest with
    | run hr hrest2 =>
      rw [List.getLast?_cons_cons] at ht
      exact ih t ht

theorem containsSign_false_iff (l : List (List Char)) :
    containsSign l = false ↔ (['+'] ∉ l ∧ ['-'] ∉ l) := by
  simp [containsSign]

theorem containsSign_append (l1 l2 : List (List Char)) :
    containsSign (l1 ++ l2) = (containsSign l1 || containsSign l2) := by
  simp [containsSign, List.elem_iff]
  by_cases h1 : ['+'] ∈ l1 <;> by_cases h2 : ['+'] ∈ l2 <;>
    by_cases h3 : ['-'] ∈ l1 <;> by_cases h4 : ['-'] ∈ l2 <;>
      simp [h1, h2, h3, h4]

theorem tokShape_nosign {b : Bool} {todo : List (List Char)}
    (h : TokShape b todo) (hns : containsSign todo = false) :
    (∀ t ∈ todo, NumTok t ∨ MDTok t) ∧
      (∀ t, todo.getLast? = some t → NumTok t) ∧
      List.Chain' (fun a b => ¬(MDTok a ∧ MDTok b)) todo := by
  obtain ⟨hp, hm⟩ := (containsSign_false_iff todo).mp hns
  refine ⟨?_, ?_, tokShape_chain h⟩
  · intro t ht
    rcases tokShape_tokens h t ht with hr | ⟨c, rfl, hc⟩
    · exact Or.inl (run_numTok hr)
    · fin_cases hc
      · exact absurd ht hp
      · exact absurd ht hm
      · exact Or.inr (Or.inl rfl)
      · exact Or.inr (Or.inr rfl)
  · intro t ht
    exact run_numTok (tokShape_last_run h t ht)

theorem tokShape_true_ne_nil {todo : List (List Char)}
    (h : TokShape true todo) : todo ≠ [] := by
  cases h with
  | run hr hrest => simp

theorem tokShape_true_head {todo : List (List Char)} (h : TokShape true todo) :
    ∀ t, todo.head? = some t → StrRun t := by
  cases h with
  | run hr hrest =>
    intro t ht
    rename_i r rest
    have heq : r = t := by simpa using ht
    rw [← heq]
    exact hr

theorem sjinv_exit {done todo : List (List Char)} (inv : SJInv done todo)
    (hns : containsSign (done ++ todo) = false) : StrMSeq (done ++ todo) := by
  obtain ⟨d1, d2, d3, dst⟩ := inv
  have hns2 : containsSign todo = false := by
    rw [containsSign_append] at hns
    exact (Bool.or_eq_false_iff.mp hns).2
  have hns1 : containsSign done = false := by
    rw [containsSign_append] at hns
    exact (Bool.or_eq_false_iff.mp hns).1
  rcases dst with ⟨rfl, hts⟩ | ⟨t0, hlast, hmd, hts⟩ | ⟨t0, hlast, hnum, hrest⟩
  · obtain ⟨f1, f2, f3⟩ := tokShape_nosign hts hns2
    refine ⟨by simpa using tokShape_true_ne_nil hts, by simpa using f1, ?_, by simpa using f2,
      by simpa using f3⟩
    intro t ht
    simp at ht
    exact run_numTok (tokShape_true_head hts t ht)
  · obtain ⟨f1, f2, f3⟩ := tokShape_nosign hts hns2
    have hdne : done ≠ [] := by
      intro hnil
      rw [hnil] at hlast
      simp at hlast
    have htne := tokShape_true_ne_nil hts
    refine ⟨by simp [hdne], ?_, ?_, ?_, ?_⟩
    · intro t ht
      rcases List.mem_append.mp ht with h | h
      · exact d1 t h
      · exact f1 t h
    · intro t ht
      rw [List.head?_append_of_ne_nil _ hdne] at ht
      exact d2 t ht
    · intro t ht
      rw [List.getLast?_append_of_ne_nil _ htne] at ht
      exact f2 t ht
    · rw [List.chain'_append]
      refine ⟨d3, f3, ?_⟩
      intro x hx y hy hmm
      have hx0 : t0 = x := by
        rw [hlast] at hx
        simpa using hx
      rw [← hx0] at hmm
      exact run_not_md (tokShape_true_head hts y (by simpa using hy)) hmm.2
  · have hdne : done ≠ [] := by
      intro hnil
      rw [hnil] at hlast
      simp at hlast
    rcases hrest with rfl | ⟨c, rest, rfl, hc, hts⟩
    · refine ⟨by simp [hdne], by simpa using d1, by simpa using d2, ?_, by simpa using d3⟩
      intro t ht
      simp at ht
      rw [hlast] at ht
      have : t0 = t := by simpa using ht
      rw [← this]
      exact hnum
    · have hshape : TokShape false ([c] :: rest) := TokShape.op hc hts
      obtain ⟨f1, f2, f3⟩ := tokShape_nosign hshape hns2
      have htne : ([c] :: rest) ≠ [] := by simp
      refine ⟨by simp [hdne], ?_, ?_, ?_, ?_⟩
      · intro t ht
        rcases List.mem_append.mp ht with h | h
        · exact d1 t h
        · exact f1 t h
      · intro t ht
        rw [List.head?_append_of_ne_nil _ hdne] at ht
        exact d2 t ht
      · intro t ht
        rw [List.getLast?_append_of_ne_nil _ htne] at ht
        exact f2 t ht
      · rw [List.chain'_append]
        refine ⟨d3, f3, ?_⟩
        intro x hx y hy hmm
        have hx0 : t0 = x := by
          rw [hlast] at hx
          simpa using hx
        rw [← hx0] at hmm
        exact mdTok_not_numTok hmm.1 hnum

theorem noSign_of_numMD {l : List (List Char)}
    (h : ∀ t ∈ l, NumTok t ∨ MDTok t) : containsSign l = false := by
  rw [containsSign_false_iff]
  constructor <;> intro hmem <;> rcases h _ hmem with hn | hm
  · exact absurd hn (by unfold NumTok; decide)
  · exact absurd hm (by unfold MDTok; decide)
  · exact absurd hn (by unfold NumTok; decide)
  · exact absurd hm (by unfold MDTok; decide)

theorem chain'_snoc {l : List (List Char)} {a : List Char}
    (h : List.Chain' (fun x y => ¬(MDTok x ∧ MDTok y)) l)
    (hb : ∀ x, l.getLast? = some x → ¬(MDTok x ∧ MDTok a)) :
    List.Chain' (fun x y => ¬(MDTok x ∧ MDTok y)) (l ++ [a]) := by
  rw [List.chain'_append]
  refine ⟨h, by simp, ?_⟩
  intro x hx y hy
  have hya : a = y := by simpa using hy
  rw [← hya]
  exact hb x hx

theorem signJoinF_total (fuel : Nat) : ∀ done todo : List (List Char),
    SJInv done todo → todo.length ≤ fuel →
    ∃ ts2, signJoinF fuel (done ++ todo) (done.length + 1) = .ok ts2 ∧
      StrMSeq ts2 := by
  induction fuel with
  | zero =>
    intro done todo inv hf
    have htodo : todo = [] := by
      cases todo with
      | nil => rfl
      | cons a b => simp at hf
    subst htodo
    have hns : containsSign (done ++ []) = false := by
      rw [List.append_nil]
      exact noSign_of_numMD inv.1
    refine ⟨done ++ [], ?_, sjinv_exit inv hns⟩
    unfold signJoinF
    rw [hns]
    simp
  | succ fuel ih =>
    intro done todo inv hf
    obtain ⟨d1, d2, d3, dst⟩ := inv
    by_cases hcs : containsSign (done ++ todo) = true
    · have htodo_ne : todo ≠ [] := by
        rintro rfl
        rw [List.append_nil] at hcs
        rw [noSign_of_numMD d1] at hcs
        exact absurd hcs (by simp)
      rcases dst with ⟨rfl, hts⟩ | ⟨t0, hlast, hmd, hts⟩ | ⟨t0, hlast, hnum, hrest⟩
      · -- done = [], todo runs-headed
        cases hts with
        | run hr hrest =>
          rename_i p todo'
          have hprev : (([] : List (List Char)) ++ p :: todo')[([] : List (List Char)).length + 1 - 1]? = some p := by
            exact getAppE [] p todo'
          have hpm : inPM p = false := run_not_inPM hr
          unfold signJoinF
          rw [hcs]
          simp only [if_true]
          rw [hprev]
          simp only [hpm, Bool.false_eq_true, if_false]
          have e1 : ([] : List (List Char)) ++ p :: todo' = ([] ++ [p]) ++ todo' := by simp
          have e2 : ([] : List (List Char)).length + 1 + 1 = (([] : List (List Char)) ++ [p]).length + 1 := by simp
          rw [e1, e2]
          apply ih ([] ++ [p]) todo'
          · refine ⟨?_, ?_, ?_, ?_⟩
            · intro t ht
              simp at ht
              subst ht
              exact Or.inl (run_numTok hr)
            · intro t ht
              simp at ht
              subst ht
              exact run_numTok hr
            · simp
            · right
              right
              refine ⟨p, by simp, run_numTok hr, ?_⟩
              cases hrest with
              | nil => exact Or.inl rfl
              | op hc hts2 => exact Or.inr ⟨_, _, rfl, hc, hts2⟩
          · simp at hf ⊢
            omega
      · -- done ends in a */ token, todo runs-headed
        cases hts with
        | run hr hrest =>
          rename_i p todo'
          have hprev : (done ++ p :: todo')[done.length + 1 - 1]? = some p := by
            rw [Nat.add_sub_cancel]
            exact getAppE done p todo'
          have hpm : inPM p = false := run_not_inPM hr
          unfold signJoinF
          rw [hcs]
          simp only [if_true]
          rw [hprev]
          simp only [hpm, Bool.false_eq_true, if_false]
          have e1 : done ++ p :: todo' = (done ++ [p]) ++ todo' := by simp
          have e2 : done.length + 1 + 1 = (done ++ [p]).length + 1 := by simp
          rw [e1, e2]
          apply ih (done ++ [p]) todo'
          · refine ⟨?_, ?_, ?_, ?_⟩
            · intro t ht
              rcases List.mem_append.mp ht with h | h
              · exact d1 t h
              · simp at h
                subst h
                exact Or.inl (run_numTok hr)
            · intro t ht
              cases done with
              | nil =>
                simp at ht
                subst ht
                exact run_numTok hr
              | cons a d' =>
                rw [List.head?_append_of_ne_nil _ (by simp)] at ht
                exact d2 t ht
            · apply chain'_snoc d3
              intro x hx hmm
              exact run_not_md hr hmm.2
            · right
              right
              refine ⟨p, List.getLast?_concat _, run_numTok hr, ?_⟩
              cases hrest with
              | nil => exact Or.inl rfl
              | op hc hts2 => exact Or.inr ⟨_, _, rfl, hc, hts2⟩
          · simp at hf ⊢
            omega
      · -- done ends in a number, todo op-headed (or empty, excluded)
        rcases hrest with rfl | ⟨c, rest, rfl, hc, hts⟩
        · exact absurd rfl htodo_ne
        have hdne : done ≠ [] := by
          intro hnil
          rw [hnil] at hlast
          simp at hlast
        have hprev : (done ++ [c] :: rest)[done.length + 1 - 1]? = some [c] := by
          rw [Nat.add_sub_cancel]
          exact getAppE done [c] rest
        have hnum_not_md : ¬ MDTok t0 := fun hm => mdTok_not_numTok hm hnum
        fin_cases hc
        · -- c = '+': merge
          cases hts with
          | run hr2 hrest2 =>
            rename_i r rest₂
            have hcur : (done ++ ['+'] :: r :: rest₂)[done.length + 1]? = some r := by
              rw [getAppR done ['+'] (r :: rest₂) (done.length + 1) (by omega)]
              simp
            unfold signJoinF
            rw [hcs]
            simp only [if_true]
            rw [hprev]
            simp only [inPM, if_true]
            simp only [hcur]
            rw [set_erase_decomp done ['+'] r (['+'] ++ r) rest₂ (done.length + 1)
              (by omega) (by simp)]
            rw [List.singleton_append]
            have e1 : done ++ ('+' :: r) :: rest₂ = (done ++ ['+' :: r]) ++ rest₂ := by
              simp
            have e2 : done.length + 1 + 1 = (done ++ ['+' :: r]).length + 1 := by simp
            rw [e1, e2]
            apply ih (done ++ ['+' :: r]) rest₂
            · have hmnum : NumTok ('+' :: r) := sign_run_numTok (Or.inl rfl) hr2
              refine ⟨?_, ?_, ?_, ?_⟩
              · intro t ht
                rcases List.mem_append.mp ht with h | h
                · exact d1 t h
                · simp at h
                  subst h
                  exact Or.inl hmnum
              · intro t ht
                rw [List.head?_append_of_ne_nil _ hdne] at ht
                exact d2 t ht
              · apply chain'_snoc d3
                intro x hx hmm
                rw [hlast] at hx
                have : t0 = x := by simpa using hx
                rw [← this] at hmm
                exact hnum_not_md hmm.1
              · right
                right
                refine ⟨'+' :: r, List.getLast?_concat _, hmnum, ?_⟩
                cases hrest2 with
                | nil => exact Or.inl rfl
                | op hc2 hts2 => exact Or.inr ⟨_, _, rfl, hc2, hts2⟩
            · simp at hf ⊢
              omega
        · -- c = '-': merge
          cases hts with
          | run hr2 hrest2 =>
            rename_i r rest₂
            have hcur : (done ++ ['-'] :: r :: rest₂)[done.length + 1]? = some r := by
              rw [getAppR done ['-'] (r :: rest₂) (done.length + 1) (by omega)]
              simp
            unfold signJoinF
            rw [hcs]
            simp only [if_true]
            rw [hprev]
            simp only [inPM, if_true]
            simp only [hcur]
            rw [set_erase_decomp done ['-'] r (['-'] ++ r) rest₂ (done.length + 1)
              (by omega) (by simp)]
            rw [List.singleton_append]
            have e1 : done ++ ('-' :: r) :: rest₂ = (done ++ ['-' :: r]) ++ rest₂ := by
              simp
            have e2 : done.length + 1 + 1 = (done ++ ['-' :: r]).length + 1 := by simp
            rw [e1, e2]
            apply ih (done ++ ['-' :: r]) rest₂
            · have hmnum : NumTok ('-' :: r) := sign_run_numTok (Or.inr rfl) hr2
              refine ⟨?_, ?_, ?_, ?_⟩
              · intro t ht
                rcases List.mem_append.mp ht with h | h
                · exact d1 t h
                · simp at h
                  subst h
                  exact Or.inl hmnum
              · intro t ht
                rw [List.head?_append_of_ne_nil _ hdne] at ht
                exact d2 t ht
              · apply chain'_snoc d3
                intro x hx hmm
                rw [hlast] at hx
                have : t0 = x := by simpa using hx
                rw [← this] at hmm
                exact hnum_not_md hmm.1
              · right
                right
                refine ⟨'-' :: r, List.getLast?_concat _, hmnum, ?_⟩
                cases hrest2 with
                | nil => exact Or.inl rfl
                | op hc2 hts2 => exact Or.inr ⟨_, _, rfl, hc2, hts2⟩
            · simp at hf ⊢
              omega
        · -- c = '*': skip
          unfold signJoinF
          rw [hcs]
          simp only [if_true]
          rw [hprev]
          simp only [inPM, Bool.false_eq_true, if_false]
          have e1 : done ++ ['*'] :: rest = (done ++ [['*']]) ++ rest := by simp
          have e2 : done.length + 1 + 1 = (done ++ [['*']]).length + 1 := by simp
          rw [e1, e2]
          apply ih (done ++ [['*']]) rest
          · refine ⟨?_, ?_, ?_, ?_⟩
            · intro t ht
              rcases List.mem_append.mp ht with h | h
              · exact d1 t h
              · simp at h
                subst h
                exact Or.inr (Or.inl rfl)
            · intro t ht
              rw [List.head?_append_of_ne_nil _ hdne] at ht
              exact d2 t ht
            · apply chain'_snoc d3
              intro x hx hmm
              rw [hlast] at hx
              have : t0 = x := by simpa using hx
              rw [← this] at hmm
              exact hnum_not_md hmm.1
            · right
              left
              exact ⟨['*'], List.getLast?_concat _, Or.inl rfl, hts⟩
          · simp at hf ⊢
            omega
        · -- c = '/': skip
          unfold signJoinF
          rw [hcs]
          simp only [if_true]
          rw [hprev]
          simp only [inPM, Bool.false_eq_true, if_false]
          have e1 : done ++ ['/'] :: rest = (done ++ [['/']]) ++ rest := by simp
          have e2 : done.length + 1 + 1 = (done ++ [['/']]).length + 1 := by simp
          rw [e1, e2]
          apply ih (done ++ [['/']]) rest
          · refine ⟨?_, ?_, ?_, ?_⟩
            · intro t ht
              rcases List.mem_append.mp ht with h | h
              · exact d1 t h
              · simp at h
                subst h
                exact Or.inr (Or.inr rfl)
            · intro t ht
              rw [List.head?_append_of_ne_nil _ hdne] at ht
              exact d2 t ht
            · apply chain'_snoc d3
              intro x hx hmm
              rw [hlast] at hx
              have : t0 = x := by simpa using hx
              rw [← this] at hmm
              exact hnum_not_md hmm.1
            · right
              left
              exact ⟨['/'], List.getLast?_concat _, Or.inr rfl, hts⟩
          · simp at hf ⊢
            omega
    · have hns : containsSign (done ++ todo) = false := by
        cases h : containsSign (done ++ todo)
        · rfl
        · exact absurd h hcs
      refine ⟨done ++ todo, ?_, sjinv_exit ⟨d1, d2, d3, dst⟩ hns⟩
      unfold signJoinF
      rw [hns]
      simp

/-! ### The converted token list and precedence resolution -/

theorem toTok_num {t : List Char} (h : NumTok t) : TNum (toTok t) := by
  unfold NumTok at h
  unfold toTok
  cases ho : toIntOpt t with
  | none => rw [ho] at h; simp at h
  | some z => exact ⟨_, rfl⟩

theorem toTok_md {t : List Char} (h : MDTok t) : TOp (toTok t) := by
  rcases h with rfl | rfl
  · exact Or.inr (by simp [toTok, toIntOpt])
  · exact Or.inl (by simp [toTok, toIntOpt])

theorem top_toTok {t : List Char} (h : TOp (toTok t)) : MDTok t := by
  unfold toTok at h
  cases ho : toIntOpt t with
  | some z =>
    rw [ho] at h
    rcases h with h | h <;> simp at h
  | none =>
    rw [ho] at h
    rcases h with h | h
    · exact Or.inr (by simpa using h)
    · exact Or.inl (by simpa using h)

theorem tnum_not_top {t : Tok} (h : TNum t) : ¬ TOp t := by
  obtain ⟨q, rfl⟩ := h
  rintro (h | h) <;> simp at h

theorem strMSeq_map {ts : List (List Char)} (h : StrMSeq ts) :
    TSeq (ts.map toTok) := by
  obtain ⟨h1, h2, h3, h4, h5⟩ := h
  refine ⟨by simpa using h1, ?_, ?_, ?_, ?_⟩
  · intro t ht
    obtain ⟨s, hs, rfl⟩ := List.mem_map.mp ht
    rcases h2 s hs with hn | hm
    · exact Or.inl (toTok_num hn)
    · exact Or.inr (toTok_md hm)
  · intro t ht
    rw [List.head?_map] at ht
    cases hh : ts.head? with
    | none => rw [hh] at ht; simp at ht
    | some s =>
      rw [hh] at ht
      have : toTok s = t := by simpa using ht
      rw [← this]
      exact toTok_num (h3 s hh)
  · intro t ht
    rw [List.getLast?_map] at ht
    cases hh : ts.getLast? with
    | none => rw [hh] at ht; simp at ht
    | some s =>
      rw [hh] at ht
      have : toTok s = t := by simpa using ht
      rw [← this]
      exact toTok_num (h4 s hh)
  · rw [List.chain'_map]
    refine List.Chain'.imp ?_ h5
    intro a b hab ⟨hta, htb⟩
    exact hab ⟨top_toTok hta, top_toTok htb⟩

theorem containsMD_false_iff (l : List Tok) :
    containsMD l = false ↔ (Tok.str ['/'] ∉ l ∧ Tok.str ['*'] ∉ l) := by
  simp [containsMD, List.elem_iff]

theorem specStep_none_of_noMD {ts : List Tok} (h : containsMD ts = false) :
    specStep ts = none := by
  obtain ⟨hd, hm⟩ := (containsMD_false_iff ts).mp h
  unfold specStep
  have : ts.findIdx? (fun t => t = Tok.str ['/'] || t = Tok.str ['*']) = none := by
    rw [List.findIdx?_eq_none_iff]
    intro x hx
    simp
    constructor
    · rintro rfl; exact hd hx
    · rintro rfl; exact hm hx
  rw [this]

theorem specRunAux_noMD {ts : List Tok} (h : containsMD ts = false) :
    ∀ n, specRunAux n ts = ts := by
  intro n
  cases n with
  | zero => rfl
  | succ n =>
    unfold specRunAux
    rw [specStep_none_of_noMD h]

theorem erase2_length {l : List Tok} {j : Nat} (v : Tok) (h : j + 1 < l.length) :
    (((l.set (j - 1) v).eraseIdx j).eraseIdx j).length + 2 = l.length := by
  have hset : (l.set (j - 1) v).length = l.length := by simp
  have e1 : ((l.set (j - 1) v).eraseIdx j).length = l.length - 1 := by
    rw [List.length_eraseIdx, hset, if_pos (by omega)]
  have e2 : (((l.set (j - 1) v).eraseIdx j).eraseIdx j).length = l.length - 2 := by
    rw [List.length_eraseIdx, e1, if_pos (by omega)]
    omega
  omega

theorem specStep_length {ts ts2 : List Tok} (h : specStep ts = some ts2) :
    ts2.length + 2 = ts.length := by
  unfold specStep at h
  split at h
  · exact absurd h (by simp)
  · rename_i j hj
    split at h
    · rename_i a b ha hb
      have hjl : j + 1 < ts.length := by
        by_contra hc
        rw [List.getElem?_eq_none (Nat.le_of_not_lt hc)] at hb
        exact absurd hb (by simp)
      split at h
      · split at h
        · exact absurd h (by simp)
        · have hEq : ((ts.set (j - 1) (Tok.num (a.div b))).eraseIdx j).eraseIdx j = ts2 := by
            simpa using h
          rw [← hEq]
          exact erase2_length _ hjl
      · have hEq : ((ts.set (j - 1) (Tok.num (a.mul b))).eraseIdx j).eraseIdx j = ts2 := by
          simpa using h
        rw [← hEq]
        exact erase2_length _ hjl
    · exact absurd h (by simp)

theorem specRunAux_succ_of_le : ∀ (n : Nat) (ts : List Tok), ts.length ≤ n →
    specRunAux (n + 1) ts = specRunAux n ts := by
  intro n
  induction n with
  | zero =>
    intro ts h
    have : ts = [] := by
      cases ts with
      | nil => rfl
      | cons a b => simp at h
    subst this
    rfl
  | succ n ih =>
    intro ts h
    cases hs : specStep ts with
    | none =>
      show (match specStep ts with
        | some ts2 => specRunAux (n + 1) ts2
        | none => ts) = (match specStep ts with
        | some ts2 => specRunAux n ts2
        | none => ts)
      rw [hs]
    | some ts2 =>
      have hlen := specStep_length hs
      show (match specStep ts with
        | some ts2 => specRunAux (n + 1) ts2
        | none => ts) = (match specStep ts with
        | some ts2 => specRunAux n ts2
        | none => ts)
      rw [hs]
      exact ih ts2 (by omega)

theorem specRunAux_stable : ∀ (k fuel : Nat) (ts : List Tok), ts.length ≤ fuel →
    specRunAux (fuel + k) ts = specRunAux fuel ts := by
  intro k
  induction k with
  | zero => intro fuel ts _; rfl
  | succ k ih =>
    intro fuel ts h
    rw [show fuel + (k + 1) = (fuel + k) + 1 from by omega]
    rw [specRunAux_succ_of_le (fuel + k) ts (by omega)]
    exact ih fuel ts h

theorem specRun_step {ts ts2 : List Tok} (hs : specStep ts = some ts2) :
    specRun ts = specRun ts2 := by
  have hlen := specStep_length hs
  unfold specRun
  rw [show ts.length = ts2.length + 2 from by omega]
  show (match specStep ts with
    | some l => specRunAux (ts2.length + 1) l
    | none => ts) = specRunAux ts2.length ts2
  rw [hs]
  rw [show ts2.length + 1 = ts2.length + 1 from rfl]
  exact specRunAux_stable 1 ts2.length ts2 (le_refl _)

theorem tseq_update {t1 t2 : List Tok} {a cur b v : Tok}
    (h : TSeq (t1 ++ a :: cur :: b :: t2)) (hv : TNum v) :
    TSeq (t1 ++ v :: t2) := by
  obtain ⟨h1, h2, h3, h4, h5⟩ := h
  have hvo : ¬ TOp v := tnum_not_top hv
  rw [List.chain'_append] at h5
  obtain ⟨hc1, hc2, hcx⟩ := h5
  have hct2 : List.Chain' (fun x y => ¬(TOp x ∧ TOp y)) t2 :=
    hc2.tail.tail.tail
  refine ⟨by simp, ?_, ?_, ?_, ?_⟩
  · intro t ht
    rcases List.mem_append.mp ht with hh | hh
    · exact h2 t (by simp [hh])
    rcases List.mem_cons.mp hh with rfl | hh'
    · exact Or.inl hv
    · exact h2 t (by simp [hh'])
  · intro t ht
    cases t1 with
    | nil =>
      have : v = t := by simpa using ht
      rw [← this]
      exact hv
    | cons x t1' =>
      rw [List.head?_append_of_ne_nil _ (by simp)] at ht
      apply h3
      rw [List.head?_append_of_ne_nil _ (by simp)]
      exact ht
  · intro t ht
    cases ht2 : t2 with
    | nil =>
      subst ht2
      rw [List.getLast?_append_of_ne_nil _ (by simp)] at ht
      have : v = t := by simpa using ht
      rw [← this]
      exact hv
    | cons u t2' =>
      subst ht2
      rw [List.getLast?_append_of_ne_nil _ (by simp)] at ht
      rw [List.getLast?_cons_cons] at ht
      apply h4
      rw [List.getLast?_append_of_ne_nil _ (by simp)]
      simp only [List.getLast?_cons_cons]
      exact ht
  · rw [List.chain'_append]
    refine ⟨hc1, ?_, ?_⟩
    · refine List.chain'_cons'.mpr ⟨?_, hct2⟩
      intro y _ hmm
      exact hvo hmm.1
    · intro x hx y hy
      have : v = y := by simpa using hy
      rw [← this]
      intro hmm
      exact hvo hmm.2

theorem tnum_str_false (cs : List Char) : ¬ TNum (Tok.str cs) := by
  rintro ⟨q, h⟩
  simp at h

theorem containsMD_true_mem {ts : List Tok} (h : containsMD ts = true) :
    Tok.str ['/'] ∈ ts ∨ Tok.str ['*'] ∈ ts := by
  simpa [containsMD, List.elem_iff] using h

theorem prefix_no_md {ts : List Tok} {i : Nat} (hlen : ts.length ≤ i)
    (hpre : ∀ j, j < i → ∀ t, ts[j]? = some t → TNum t) :
    containsMD ts = false := by
  cases hc : containsMD ts
  · rfl
  · exfalso
    rcases containsMD_true_mem hc with hm | hm <;>
    · obtain ⟨j, hj⟩ := List.mem_iff_getElem?.mp hm
      have hjl : j < ts.length := by
        by_contra hcc
        rw [List.getElem?_eq_none (Nat.le_of_not_lt hcc)] at hj
        exact absurd hj (by simp)
      exact tnum_str_false _ (hpre j (by omega) _ hj)

theorem multDivF_run (fuel : Nat) : ∀ (ts : List Tok) (i : Nat),
    1 ≤ i → ts.length ≤ fuel + i →
    (∀ j, j < i → ∀ t, ts[j]? = some t → TNum t) →
    TSeq ts → GoodNum ts →
    multDivF fuel ts i = .ok (specRun ts) ∧
      (∀ t ∈ specRun ts, TNum t) ∧ specRun ts ≠ [] := by
  induction fuel with
  | zero =>
    intro ts i hi hlen hpre hseq hgood
    have hcmd : containsMD ts = false := prefix_no_md (by omega) hpre
    have hrun : specRun ts = ts := specRunAux_noMD hcmd _
    rw [hrun]
    refine ⟨?_, ?_, hseq.1⟩
    · unfold multDivF
      rw [hcmd]
      simp
    · intro t ht
      rcases hseq.2.1 t ht with hn | ho
      · exact hn
      · exfalso
        have hnm := (containsMD_false_iff ts).mp hcmd
        rcases ho with rfl | rfl
        · exact hnm.1 ht
        · exact hnm.2 ht
  | succ fuel ih =>
    intro ts i hi hlen hpre hseq hgood
    by_cases hcmd : containsMD ts = true
    · -- there is still a * or / somewhere; it sits at index ≥ i
      have hilen : i < ts.length := by
        by_contra hc
        rw [prefix_no_md (by omega) hpre] at hcmd
        exact absurd hcmd (by simp)
      have hcur : ∃ cur, ts[i]? = some cur :=
        ⟨ts[i], List.getElem?_eq_getElem hilen⟩
      obtain ⟨cur, hcur⟩ := hcur
      by_cases hop : TOp cur
      · -- fire
        have hblt : i + 1 < ts.length := by
          by_contra hc
          have hle : ts.length ≤ i + 1 := Nat.le_of_not_lt hc
          have hgl : ts.getLast? = some cur := by
            rw [List.getLast?_eq_getElem?]
            rw [show ts.length - 1 = i from by omega]
            exact hcur
          exact tnum_not_top (hseq.2.2.2.1 cur hgl) hop
        have ha0 : ∃ a, ts[i - 1]? = some a :=
          ⟨ts[i - 1], List.getElem?_eq_getElem (by omega)⟩
        obtain ⟨a, ha⟩ := ha0
        have hb0 : ∃ b, ts[i + 1]? = some b :=
          ⟨ts[i + 1], List.getElem?_eq_getElem hblt⟩
        obtain ⟨b, hb⟩ := hb0
        obtain ⟨x, rfl⟩ : TNum a := hpre (i - 1) (by omega) a ha
        obtain ⟨t1, t2, hdec, hlen1⟩ := triple_decomp ts i hi ha hcur hb
        have hbnum : TNum b := by
          have hch := hseq.2.2.2.2
          rw [hdec, List.chain'_append] at hch
          have hrel : ¬(TOp cur ∧ TOp b) :=
            (List.chain'_cons.mp ((List.chain'_cons.mp hch.2.1).2)).1
          rcases hseq.2.1 b (by rw [hdec]; simp) with hn | ho
          · exact hn
          · exact absurd ⟨hop, ho⟩ hrel
        obtain ⟨y, rfl⟩ := hbnum
        obtain ⟨hy1, hy2⟩ := hgood y (List.getElem?_mem hb)
        -- the operation result
        have hcond : (decide (cur = Tok.str ['/']) || decide (cur = Tok.str ['*'])) = true := by
          rcases hop with rfl | rfl <;> simp
        have happ : ∃ v : Frac, applyOp (cur = Tok.str ['/']) (Tok.num x) (Tok.num y) =
            .ok (Tok.num v) ∧
            (cur = Tok.str ['/'] → v = x.div y) ∧ (cur = Tok.str ['*'] → v = x.mul y) := by
          rcases hop with rfl | rfl
          · refine ⟨x.div y, ?_, fun _ => rfl, fun hcc => by simp at hcc⟩
            simp [applyOp, hy1]
          · refine ⟨x.mul y, ?_, fun hcc => by simp at hcc, fun _ => rfl⟩
            have : (Tok.str ['*'] = Tok.str ['/']) = False := by simp
            simp [applyOp, this]
        obtain ⟨v, happ, hvdiv, hvmul⟩ := happ
        -- the updated list
        have hupd : ((ts.set (i - 1) (Tok.num v)).eraseIdx i).eraseIdx i =
            t1 ++ Tok.num v :: t2 := by
          rw [hdec]
          exact set_erase2_decomp t1 (Tok.num x) cur (Tok.num y) (Tok.num v) t2 i hi hlen1
        -- specStep fires at i with the same result
        have hfind : ts.findIdx? (fun t => t = Tok.str ['/'] || t = Tok.str ['*']) = some i := by
          rw [List.findIdx?_eq_some_iff_getElem]
          refine ⟨hilen, ?_, ?_⟩
          · have : ts[i] = cur := by
              have := List.getElem?_eq_getElem hilen
              rw [hcur] at this
              exact (Option.some_inj.mp this).symm
            rw [this]
            exact hcond
          · intro j hji
            have := hpre j (by omega) ts[j] (List.getElem?_eq_getElem (by omega))
            obtain ⟨q, hq⟩ := this
            rw [hq]
            simp
        have hstep : specStep ts = some (t1 ++ Tok.num v :: t2) := by
          unfold specStep
          simp only [hfind, ha, hb]
          by_cases hdvc : cur = Tok.str ['/']
          · rw [if_pos (by rw [hcur, hdvc])]
            rw [if_neg hy1]
            rw [hvdiv hdvc] at hupd ⊢
            rw [hupd]
          · have hmulc : cur = Tok.str ['*'] := by
              rcases hop with h | h
              · exact absurd h hdvc
              · exact h
            rw [if_neg (by rw [hcur]; simp [hdvc])]
            rw [hvmul hmulc] at hupd ⊢
            rw [hupd]
        have hrunstep := specRun_step hstep
        -- invariants for the recursive call
        have hlen2 : (t1 ++ Tok.num v :: t2).length + 2 = ts.length := by
          rw [hdec]
          simp only [List.length_append, List.length_cons]
          omega
        have hpre2 : ∀ j, j < i → ∀ t, (t1 ++ Tok.num v :: t2)[j]? = some t → TNum t := by
          intro j hj t ht
          rcases Nat.lt_trichotomy j (i - 1) with hlt | heq | hgt
          · rw [getAppL t1 _ t2 j (by omega)] at ht
            apply hpre j (by omega) t
            rw [hdec, getAppL t1 _ _ j (by omega)]
            exact ht
          · rw [heq, show i - 1 = t1.length from by omega, getAppE] at ht
            have : Tok.num v = t := by simpa using ht
            rw [← this]
            exact ⟨v, rfl⟩
          · omega
        have hseq2 : TSeq (t1 ++ Tok.num v :: t2) :=
          @tseq_update t1 t2 (Tok.num x) cur (Tok.num y) (Tok.num v)
            (by rw [← hdec]; exact hseq) ⟨v, rfl⟩
        have hgood2 : GoodNum (t1 ++ Tok.num v :: t2) := by
          rw [← hupd]
          apply good_update i hgood
          exact applyOp_good happ
            (fun x' hx' => hgood x' (by rw [hx'] at ha; exact List.getElem?_mem ha))
            (fun y' hy' => hgood y' (by rw [hy'] at hb; exact List.getElem?_mem hb))
        have hrec := ih (t1 ++ Tok.num v :: t2) i hi (by omega) hpre2 hseq2 hgood2
        refine ⟨?_, by rw [hrunstep]; exact hrec.2.1, by rw [hrunstep]; exact hrec.2.2⟩
        unfold multDivF
        simp only [hcmd, if_true, hcur, hcond, ha, hb, happ]
        rw [hupd, hrunstep]
        exact hrec.1
      · -- cur is a number: step over it
        have hcnum : TNum cur := by
          rcases hseq.2.1 cur (List.getElem?_mem hcur) with hn | ho
          · exact hn
          · exact absurd ho hop
        have hcond : (decide (cur = Tok.str ['/']) || decide (cur = Tok.str ['*'])) = false := by
          obtain ⟨q, rfl⟩ := hcnum
          simp
        have hpre2 : ∀ j, j < i + 1 → ∀ t, ts[j]? = some t → TNum t := by
          intro j hj t ht
          rcases Nat.lt_or_ge j i with hlt | hge
          · exact hpre j hlt t ht
          · have : j = i := by omega
            subst this
            rw [hcur] at ht
            have : cur = t := by simpa using ht
            rw [← this]
            exact hcnum
        have hrec := ih ts (i + 1) (by omega) (by omega) hpre2 hseq hgood
        refine ⟨?_, hrec.2.1, hrec.2.2⟩
        unfold multDivF
        simp only [hcmd, if_true, hcur, hcond, Bool.false_eq_true, if_false]
        exact hrec.1
    · -- no * or / left: the loop exits with the list unchanged
      have hcmd' : containsMD ts = false := by
        cases h : containsMD ts
        · rfl
        · exact absurd h hcmd
      have hrun : specRun ts = ts := specRunAux_noMD hcmd' _
      rw [hrun]
      refine ⟨?_, ?_, hseq.1⟩
      · unfold multDivF
        rw [hcmd']
        simp
      · intro t ht
        rcases hseq.2.1 t ht with hn | ho
        · exact hn
        · exfalso
          have hnm := (containsMD_false_iff ts).mp hcmd'
          rcases ho with rfl | rfl
          · exact hnm.1 ht
          · exact hnm.2 ht

/-! ### Totality of the evaluation pipeline on well-formed expressions -/

theorem multDiv_run {ts : List Tok} (hseq : TSeq ts) (hgood : GoodNum ts) :
    multDiv ts = .ok (specRun ts) ∧ (∀ t ∈ specRun ts, TNum t) ∧ specRun ts ≠ [] := by
  unfold multDiv
  apply multDivF_run ts.length ts 1 (by omega) (by omega) ?_ hseq hgood
  intro j hj t ht
  have hj0 : j = 0 := by omega
  subst hj0
  apply hseq.2.2.1
  cases ts with
  | nil => simp at ht
  | cons a b =>
    simp only [List.head?_cons]
    simpa using ht

theorem sumToks_total : ∀ ts : List Tok, (∀ t ∈ ts, TNum t) →
    ∃ q, sumToks ts = .ok q
  | [], _ => ⟨Frac.ofInt 0, rfl⟩
  | t :: rest, h => by
    obtain ⟨q, rfl⟩ := h t (by simp)
    obtain ⟨s, hs⟩ := sumToks_total rest (fun t ht => h t (by simp [ht]))
    exact ⟨q.add s, by unfold sumToks; rw [hs]⟩

theorem sumToks_den : ∀ (ts : List Tok), (∀ f : Frac, Tok.num f ∈ ts → f.den ≠ 0) →
    ∀ q, sumToks ts = .ok q → q.den ≠ 0
  | [], _, q, hq => by
    have : Frac.ofInt 0 = q := by simpa [sumToks] using hq
    rw [← this]
    simp [Frac.ofInt]
  | .str s :: rest, _, q, hq => by simp [sumToks] at hq
  | .num f :: rest, h, q, hq => by
    unfold sumToks at hq
    split at hq
    · exact absurd hq (by simp)
    · rename_i s hs
      have hfq : f.add s = q := by simpa using hq
      have h1 : f.den ≠ 0 := h f (by simp)
      have h2 : s.den ≠ 0 := sumToks_den rest (fun g hg => h g (by simp [hg])) s hs
      rw [← hfq]
      simp [Frac.add]
      exact ⟨h1, h2⟩

theorem solve_expression_total {s : List Char} (h1 : s ≠ [])
    (h2 : ∀ c ∈ s, c.isDigit = true ∨ c ∈ ops4)
    (h3 : ∀ d, s.head? = some d → d.isDigit = true)
    (h4 : ∀ d, s.getLast? = some d → d.isDigit = true) :
    ∃ r, solve_expression s = .ok r := by
  by_cases hpv : prevalidReject s = true
  · exact ⟨none, by unfold solve_expression; rw [if_pos hpv]⟩
  · have hpv' : prevalidReject s = false := by simpa using hpv
    have hco : hasConsecOps s = false := by
      have hx := hpv'
      simp [prevalidReject] at hx
      exact hx.1.1
    have hts : TokShape true (joinNums s) := joinNums_shape h1 h2 h3 h4 hco
    have hinv : SJInv [] (joinNums s) :=
      ⟨by simp, by simp, by simp, Or.inl ⟨rfl, hts⟩⟩
    obtain ⟨ts2, hok, hms⟩ :=
      signJoinF_total ((joinNums s).length + 1) [] (joinNums s) hinv (by omega)
    have hsj : signJoin (joinNums s) = .ok ts2 := by
      unfold signJoin
      simpa using hok
    obtain ⟨k1, k2, k3⟩ := joinNums_inv hpv'
    have hgood : GoodNum (ts2.map toTok) :=
      goodNum_map_toTok (signJoin_pres k1 k2 k3 hsj)
    have hseq : TSeq (ts2.map toTok) := strMSeq_map hms
    obtain ⟨hmd, hall, hne⟩ := multDiv_run hseq hgood
    obtain ⟨q, hq⟩ := sumToks_total _ hall
    refine ⟨if q.isWhole then some q.toInt else none, ?_⟩
    unfold solve_expression
    rw [if_neg (by simp [hpv'])]
    simp only [hsj, hmd, hq]
    rw [if_neg hne]

/-- C9 counterexample: `evaluate` is not total on arbitrary strings — on
the input `"1+"` the sign-absorption loop reads `expression[i]` past the
end of the list and the program raises an IndexError instead of
returning an integer or `invalid`. -/
theorem c9_counterexample :
    solve_expression (strChars "1+") = .error Fault.indexError := by decide

/-- C9 (amended): `evaluate` is total — it returns an integer or
`invalid` and never raises a fault — not on every string, but on every
non-empty string over the game alphabet (ASCII digits and the operators
`+ - * /`) that begins and ends with a digit; this covers every
expression the generator ever submits. -/
theorem c9_totality_on_wellformed (s : List Char) (h1 : s ≠ [])
    (h2 : ∀ c ∈ s, c.isDigit = true ∨ c ∈ ops4)
    (h3 : ∀ d, s.head? = some d → d.isDigit = true)
    (h4 : ∀ d, s.getLast? = some d → d.isDigit = true) :
    ∃ r, solve_expression s = .ok r :=
  solve_expression_total h1 h2 h3 h4

/-- Witness for C9 at the concrete well-formed input `"1+2*3"`. -/
theorem c9_witness : ∃ r, solve_expression (strChars "1+2*3") = .ok r :=
  c9_totality_on_wellformed (strChars "1+2*3")
    (by decide) (by decide) (by decide) (by decide)

/-- C7: on every token list of the shape that reaches the precedence
loop, the loop computes exactly the iterated leftmost-first reduction —
repeatedly the first `*`/`/` token and its two numeric neighbours are
replaced by the product or quotient (`specRun`, modelled from the spec) —
and the end-to-end evaluator reproduces the four recorded scenarios
`16+4*2 = 24`, `2/1*40 = 80`, `195-87 = 108`, `801/89 = 9`. -/
theorem c7_leftmost_resolution :
    (∀ ts : List Tok, TSeq ts → GoodNum ts → multDiv ts = .ok (specRun ts)) ∧
    solve_expression (strChars "16+4*2") = .ok (some 24) ∧
    solve_expression (strChars "2/1*40") = .ok (some 80) ∧
    solve_expression (strChars "195-87") = .ok (some 108) ∧
    solve_expression (strChars "801/89") = .ok (some 9) :=
  ⟨fun _ h g => (multDiv_run h g).1, by decide, by decide, by decide, by decide⟩

/-- Witness for C7 on the concrete token list `6 * 7`: the loop agrees
with the leftmost-first reduction, whose value is the single token `42`. -/
theorem c7_witness :
    multDiv [Tok.num ⟨6, 1⟩, Tok.str ['*'], Tok.num ⟨7, 1⟩] =
      .ok (specRun [Tok.num ⟨6, 1⟩, Tok.str ['*'], Tok.num ⟨7, 1⟩]) ∧
    specRun [Tok.num ⟨6, 1⟩, Tok.str ['*'], Tok.num ⟨7, 1⟩] = [Tok.num ⟨42, 1⟩] := by
  refine ⟨c7_leftmost_resolution.1 _ ?_ ?_, by decide⟩
  · refine ⟨by simp, ?_, ?_, ?_, ?_⟩
    · intro t ht
      simp at ht
      rcases ht with rfl | rfl | rfl
      · exact Or.inl ⟨_, rfl⟩
      · exact Or.inr (Or.inr rfl)
      · exact Or.inl ⟨_, rfl⟩
    · intro t ht
      have h6 : Tok.num ⟨6, 1⟩ = t := by simpa using ht
      exact ⟨_, h6.symm⟩
    · intro t ht
      have h7 : Tok.num ⟨7, 1⟩ = t := by simpa using ht
      exact ⟨_, h7.symm⟩
    · refine List.chain'_cons.mpr ⟨?_, List.chain'_cons.mpr ⟨?_, List.chain'_singleton _⟩⟩
      · rintro ⟨(h | h), _⟩ <;> simp at h
      · rintro ⟨_, (h | h)⟩ <;> simp at h
  · intro f hf
    simp at hf
    rcases hf with rfl | rfl <;> exact ⟨by decide, by decide⟩

theorem isWhole_iff {q : Frac} (hd : q.den ≠ 0) :
    q.isWhole = true ↔ ∃ z : Int, q.val = (z : ℚ) := by
  have hdq : (q.den : ℚ) ≠ 0 := Int.cast_ne_zero.mpr hd
  constructor
  · intro h
    have h0 : q.num % q.den = 0 := by simpa [Frac.isWhole] using h
    obtain ⟨z, hz⟩ := Int.dvd_of_emod_eq_zero h0
    refine ⟨z, ?_⟩
    unfold Frac.val
    rw [hz]
    push_cast
    rw [mul_comm, mul_div_assoc, div_self hdq, mul_one]
  · rintro ⟨z, hz⟩
    unfold Frac.val at hz
    have hnum : (q.num : ℚ) = (z : ℚ) * (q.den : ℚ) := by
      field_simp at hz
      exact hz
    have hnum' : q.num = z * q.den := by exact_mod_cast hnum
    have hdvd : q.den ∣ q.num := ⟨z, by rw [hnum', mul_comm]⟩
    simp [Frac.isWhole, Int.emod_eq_zero_of_dvd hdvd]

theorem whole_toInt {q : Frac} (hd : q.den ≠ 0) (hw : q.isWhole = true) :
    (q.toInt : ℚ) = q.val := by
  have hdq : (q.den : ℚ) ≠ 0 := Int.cast_ne_zero.mpr hd
  have h0 : q.num % q.den = 0 := by simpa [Frac.isWhole] using hw
  obtain ⟨z, hz⟩ := Int.dvd_of_emod_eq_zero h0
  unfold Frac.toInt Frac.val
  rw [hz, Int.mul_ediv_cancel_left _ hd]
  push_cast
  rw [mul_comm, mul_div_assoc, div_self hdq, mul_one]

/-- C4: whenever evaluation reaches the final summation with value `q`
(a fraction with nonzero denominator), `evaluate` returns the integer
`q.toInt` exactly when `q` is mathematically a whole number — the
returned integer equals the exact rational sum, and no integrality is
demanded of intermediate step-3 quotients: `evaluate "8/10*5" = 4` and
`evaluate "8/12*9" = 6` although the intermediate quotients 8/10 and
8/12 are fractional. -/
theorem c4_whole_sum :
    (∀ (s : List Char) (q : Frac), exprSum s = some q →
      q.den ≠ 0 ∧
      solve_expression s = .ok (if q.isWhole then some q.toInt else none) ∧
      (q.isWhole = true ↔ ∃ z : Int, q.val = (z : ℚ)) ∧
      (q.isWhole = true → (q.toInt : ℚ) = q.val)) ∧
    solve_expression (strChars "8/10*5") = .ok (some 4) ∧
    solve_expression (strChars "8/12*9") = .ok (some 6) := by
  refine ⟨?_, by decide, by decide⟩
  intro s q hq
  unfold exprSum at hq
  split at hq
  · exact absurd hq (by simp)
  · rename_i hpv
    have hpv' : prevalidReject s = false := by simpa using hpv
    obtain ⟨k1, k2, k3⟩ := joinNums_inv hpv'
    split at hq
    · exact absurd hq (by simp)
    · rename_i ts1 hsj
      have g1 : GoodNum (ts1.map toTok) :=
        goodNum_map_toTok (signJoin_pres k1 k2 k3 hsj)
      split at hq
      · exact absurd hq (by simp)
      · rename_i ts2 hmd
        have g2 : GoodNum ts2 := (multDiv_good g1).2 ts2 hmd
        split at hq
        · exact absurd hq (by simp)
        · rename_i hne
          split at hq
          · exact absurd hq (by simp)
          · rename_i q0 hsum
            have hqq : q0 = q := by simpa using hq
            subst hqq
            have hden : q0.den ≠ 0 :=
              sumToks_den ts2 (fun f hf => (g2 f hf).2) q0 hsum
            refine ⟨hden, ?_, isWhole_iff hden, whole_toInt hden⟩
            unfold solve_expression
            rw [if_neg (by simp [hpv'])]
            simp only [hsj, hmd, hsum]
            rw [if_neg hne]

/-- Witness for C4 at the concrete input `"8/10*5"`, whose final sum is
the fraction `40/10`. -/
theorem c4_witness :
    exprSum (strChars "8/10*5") = some ⟨40, 10⟩ ∧
      (⟨40, 10⟩ : Frac).den ≠ 0 ∧
      solve_expression (strChars "8/10*5") =
        .ok (if (⟨40, 10⟩ : Frac).isWhole then some (Frac.toInt ⟨40, 10⟩) else none) ∧
      ((⟨40, 10⟩ : Frac).isWhole = true ↔ ∃ z : Int, (⟨40, 10⟩ : Frac).val = (z : ℚ)) := by
  have h := c4_whole_sum.1 (strChars "8/10*5") ⟨40, 10⟩ (by decide)
  exact ⟨by decide, h.1, h.2.1, h.2.2.1⟩

/-! ### Candidate enumeration: the Cartesian product of a pattern -/

theorem prodAll_mem : ∀ (p : List (List Char)) (c : List Char),
    c ∈ prodAll p ↔ List.Forall₂ (fun ch a => ch ∈ a) c p
  | [], c => by
    simp [prodAll, List.forall₂_nil_right_iff]
  | a :: rest, c => by
    simp only [prodAll, List.mem_flatMap, List.mem_map]
    constructor
    · rintro ⟨ch, hch, c', hc', rfl⟩
      exact List.Forall₂.cons hch ((prodAll_mem rest c').mp hc')
    · intro h
      cases h with
      | cons hch hrest =>
        rename_i ch c'
        exact ⟨ch, hch, c', (prodAll_mem rest c').mpr hrest, rfl⟩

theorem count_eq_of_forall₂ : ∀ {c : List Char} {p : List (List Char)},
    List.Forall₂ (fun ch a => ch ∈ a) c p →
    (∀ a ∈ p, a = ['='] ∨ '=' ∉ a) →
    c.count '=' = p.count ['=']
  | _, _, .nil, _ => rfl
  | _, _, .cons hch hrest, hside => by
    rename_i ch a c' p'
    have ih := count_eq_of_forall₂ hrest (fun b hb => hside b (by simp [hb]))
    rcases hside a (by simp) with rfl | hnot
    · have hcheq : ch = '=' := by simpa using hch
      subst hcheq
      simp [List.count_cons, ih]
    · have hne : ch ≠ '=' := fun h => hnot (h ▸ hch)
      have hane : a ≠ ['='] := fun h => hnot (by rw [h]; simp)
      simp [List.count_cons, ih, hne, hane]

theorem forall₂_getElem {cs : List Char} {p : List (List Char)}
    (h : List.Forall₂ (fun ch a => ch ∈ a) cs p) :
    ∀ (i : Nat) (ch : Char) (a : List Char),
      cs[i]? = some ch → p[i]? = some a → ch ∈ a := by
  induction h with
  | nil => intro i ch a h1 _; simp at h1
  | cons hch hrest ih =>
    intro i ch a h1 h2
    cases i with
    | zero =>
      rename_i x b l1 l2
      have e1 : x = ch := by simpa using h1
      have e2 : b = a := by simpa using h2
      rw [← e1, ← e2]
      exact hch
    | succ j => exact ih j ch a (by simpa using h1) (by simpa using h2)

/-- C10: every candidate drawn from a generated pattern contains exactly
one `'='` character (the single `{=}` alphabet supplies one, every other
alphabet excludes `'='`), so the filter's split on `'='` is well-defined;
and no candidate string is producible from two distinct patterns of the
same mode, because their equal-sign positions differ. -/
theorem c10_unique_equal_sign :
    (∀ (m : GameMode) (p : List (List Char)), p ∈ genPatterns m →
      ∀ cs ∈ prodAll p, cs.count '=' = 1) ∧
    (∀ (m : GameMode) (p1 p2 : List (List Char)), p1 ∈ genPatterns m →
      p2 ∈ genPatterns m → p1 ≠ p2 →
      ∀ cs, cs ∈ prodAll p1 → cs ∉ prodAll p2) := by
  constructor
  · intro m p hp cs hc
    have hf := (prodAll_mem p cs).mp hc
    have hfacts : (∀ a ∈ p, a = ['='] ∨ '=' ∉ a) ∧ p.count ['='] = 1 := by
      cases m with
      | mini =>
        have hall : ∀ q ∈ genPatterns GameMode.mini,
            (∀ a ∈ q, a = ['='] ∨ '=' ∉ a) ∧ q.count ['='] = 1 := by decide
        exact hall p hp
      | regular =>
        have hall : ∀ q ∈ genPatterns GameMode.regular,
            (∀ a ∈ q, a = ['='] ∨ '=' ∉ a) ∧ q.count ['='] = 1 := by decide
        exact hall p hp
    rw [count_eq_of_forall₂ hf hfacts.1, hfacts.2]
  · intro m p1 p2 hp1 hp2 hne cs hc1 hc2
    have hf1 := (prodAll_mem p1 cs).mp hc1
    have hf2 := (prodAll_mem p2 cs).mp hc2
    have key : ∀ pa ∈ genPatterns m, ∀ pb ∈ genPatterns m, pa ≠ pb →
        (pa.findIdx (fun a => a = ['=']) < pa.length ∧
         pa.findIdx (fun a => a = ['=']) < pb.length ∧
         pa[pa.findIdx (fun a => a = ['='])]? = some ['='] ∧
         '=' ∉ (pb[pa.findIdx (fun a => a = ['='])]?).getD []) := by
      cases m with
      | mini => decide
      | regular => decide
    obtain ⟨hlt1, hlt2, hget1, hnot⟩ := key p1 hp1 p2 hp2 hne
    have hlenc : cs.length = p1.length := hf1.length_eq
    set ia := p1.findIdx (fun a => a = ['=']) with hia
    have hialt : ia < cs.length := by omega
    have hcs : cs[ia]? = some (cs.get ⟨ia, hialt⟩) :=
      List.getElem?_eq_getElem hialt
    have hch1 : cs.get ⟨ia, hialt⟩ ∈ (['='] : List Char) :=
      forall₂_getElem hf1 ia _ _ hcs hget1
    have hcheq : cs.get ⟨ia, hialt⟩ = '=' := by simpa using hch1
    have hp2get : p2[ia]? = some (p2.get ⟨ia, hlt2⟩) :=
      List.getElem?_eq_getElem hlt2
    have hch2 : cs.get ⟨ia, hialt⟩ ∈ p2.get ⟨ia, hlt2⟩ :=
      forall₂_getElem hf2 ia _ _ hcs hp2get
    rw [hcheq] at hch2
    apply hnot
    rw [hp2get]
    simpa using hch2

/-- Witness for C10: the candidate `"1+2=12"` of the first Mini pattern
has exactly one `'='`, and it cannot be drawn from the second Mini
pattern. -/
theorem c10_witness :
    (strChars "1+2=12").count '=' = 1 ∧
      strChars "1+2=12" ∉ prodAll [D19, DOps, DOps, D09, ['='], D09] := by
  have hmem : strChars "1+2=12" ∈ prodAll [D19, DOps, D09, ['='], D19, D09] := by
    apply (prodAll_mem _ _).mpr
    have hs : strChars "1+2=12" = ['1', '+', '2', '=', '1', '2'] := by decide
    rw [hs]
    exact .cons (by decide) (.cons (by decide) (.cons (by decide) (.cons (by decide)
      (.cons (by decide) (.cons (by decide) .nil)))))
  exact ⟨c10_unique_equal_sign.1 GameMode.mini _ (by decide) _ hmem,
    c10_unique_equal_sign.2 GameMode.mini _ _ (by decide) (by decide) (by decide) _ hmem⟩

theorem forall₂_append_split {R : Char → List Char → Prop} :
    ∀ {A : List (List Char)} {B : List (List Char)} {cs : List Char},
    List.Forall₂ R cs (A ++ B) →
    ∃ c1 c2, cs = c1 ++ c2 ∧ List.Forall₂ R c1 A ∧ List.Forall₂ R c2 B
  | [], _, cs, h => ⟨[], cs, rfl, .nil, by simpa using h⟩
  | a :: A', _, cs, h => by
    cases h with
    | cons hch hrest =>
      rename_i ch cs'
      obtain ⟨c1, c2, rfl, hA, hB⟩ := forall₂_append_split hrest
      exact ⟨ch :: c1, c2, rfl, .cons hch hA, hB⟩

theorem forall₂_mem_left {cs : List Char} {p : List (List Char)}
    (h : List.Forall₂ (fun ch a => ch ∈ a) cs p) :
    ∀ ch ∈ cs, ∃ a ∈ p, ch ∈ a := by
  induction h with
  | nil => simp
  | cons hch hrest ih =>
    intro ch hchm
    rcases List.mem_cons.mp hchm with rfl | hm
    · exact ⟨_, by simp, hch⟩
    · obtain ⟨a, ha, hma⟩ := ih ch hm
      exact ⟨a, by simp [ha], hma⟩

theorem forall₂_head {cs : List Char} {p : List (List Char)}
    (h : List.Forall₂ (fun ch a => ch ∈ a) cs p) :
    ∀ ch, cs.head? = some ch → ∃ a, p.head? = some a ∧ ch ∈ a := by
  cases h with
  | nil => intro ch hch; simp at hch
  | cons hch hrest =>
    intro ch2 hch2
    rename_i x a l1 l2
    have hxe : x = ch2 := by simpa using hch2
    exact ⟨a, by simp, hxe ▸ hch⟩

theorem forall₂_getLast {cs : List Char} {p : List (List Char)}
    (h : List.Forall₂ (fun ch a => ch ∈ a) cs p) :
    ∀ ch, cs.getLast? = some ch → ∃ a, p.getLast? = some a ∧ ch ∈ a := by
  induction h with
  | nil => intro ch hch; simp at hch
  | cons hch hrest ih =>
    intro ch2 hch2
    rename_i x a l1 l2
    cases l1 with
    | nil =>
      have hl2 : l2 = [] := by
        have hl := hrest.length_eq
        simpa using hl.symm
      subst hl2
      have hxe : x = ch2 := by simpa using hch2
      exact ⟨a, by simp, hxe ▸ hch⟩
    | cons y l1' =>
      rw [List.getLast?_cons_cons] at hch2
      obtain ⟨b, hb, hmb⟩ := ih ch2 hch2
      refine ⟨b, ?_, hmb⟩
      cases l2 with
      | nil =>
        have hl := hrest.length_eq
        simp at hl
      | cons z l2' =>
        rw [List.getLast?_cons_cons]
        exact hb

theorem exprPart_split {c1 c2 : List Char} (h : ∀ ch ∈ c1, ch ≠ '=') :
    exprPart (c1 ++ '=' :: c2) = c1 ∧ resPart (c1 ++ '=' :: c2) = c2 := by
  induction c1 with
  | nil =>
    constructor
    · rw [List.nil_append]
      unfold exprPart
      rw [List.takeWhile_cons]
      simp
    · rw [List.nil_append]
      unfold resPart
      rw [List.dropWhile_cons]
      simp
  | cons x c1' ih =>
    have hx : x ≠ '=' := h x (by simp)
    have ih' := ih (fun ch hch => h ch (by simp [hch]))
    constructor
    · have hh := ih'.1
      unfold exprPart at hh ⊢
      rw [List.cons_append, List.takeWhile_cons]
      simp [hx]
      simpa using hh
    · have hh := ih'.2
      unfold resPart at hh ⊢
      rw [List.cons_append, List.dropWhile_cons]
      simp [hx]
      simpa using hh

theorem solve_result_total {s : List Char} (h1 : s ≠ [])
    (h2 : ∀ c ∈ s, c.isDigit = true) :
    ∃ r, solve_result s = .ok r := by
  unfold solve_result
  by_cases hv : leadingZeroViol s = true
  · rw [if_pos hv]
    exact ⟨none, rfl⟩
  · rw [if_neg hv]
    rw [toIntOpt_digits s h1 (by simpa using h2)]
    exact ⟨some (digitsVal s), rfl⟩

theorem acceptCandidate_total {A B : List (List Char)} {cs : List Char}
    (hAne : A ≠ []) (hBne : B ≠ [])
    (hA : ∀ a ∈ A, ∀ ch ∈ a, ch.isDigit = true ∨ ch ∈ ops4)
    (hAhead : ∀ a, A.head? = some a → ∀ ch ∈ a, ch.isDigit = true)
    (hAlast : ∀ a, A.getLast? = some a → ∀ ch ∈ a, ch.isDigit = true)
    (hAeq : ∀ a ∈ A, '=' ∉ a)
    (hB : ∀ a ∈ B, ∀ ch ∈ a, ch.isDigit = true)
    (hc : List.Forall₂ (fun ch a => ch ∈ a) cs (A ++ ['='] :: B)) :
    ∃ b, acceptCandidate cs = .ok b := by
  obtain ⟨c1, c2', rfl, hcA, hcB⟩ := forall₂_append_split hc
  cases hcB with
  | cons hch hrest =>
    rename_i ch c2
    have hcheq : ch = '=' := by simpa using hch
    subst hcheq
    have hc1eq : ∀ ch ∈ c1, ch ≠ '=' := by
      intro ch hm heq
      obtain ⟨a, ha, hma⟩ := forall₂_mem_left hcA ch hm
      rw [heq] at hma
      exact hAeq a ha hma
    obtain ⟨hex, hres⟩ := exprPart_split hc1eq
    have hc1ne : c1 ≠ [] := by
      intro hnil
      rw [hnil] at hcA
      exact hAne (List.forall₂_nil_left_iff.mp hcA)
    have hc2ne : c2 ≠ [] := by
      intro hnil
      rw [hnil] at hrest
      exact hBne (List.forall₂_nil_left_iff.mp hrest)
    have h1 : ∀ ch ∈ c1, ch.isDigit = true ∨ ch ∈ ops4 := by
      intro ch hm
      obtain ⟨a, ha, hma⟩ := forall₂_mem_left hcA ch hm
      exact hA a ha ch hma
    have h3 : ∀ d, c1.head? = some d → d.isDigit = true := by
      intro d hd
      obtain ⟨a, ha, hma⟩ := forall₂_head hcA d hd
      exact hAhead a ha d hma
    have h4 : ∀ d, c1.getLast? = some d → d.isDigit = true := by
      intro d hd
      obtain ⟨a, ha, hma⟩ := forall₂_getLast hcA d hd
      exact hAlast a ha d hma
    obtain ⟨v1, hv1⟩ := solve_expression_total hc1ne h1 h3 h4
    have h2d : ∀ ch ∈ c2, ch.isDigit = true := by
      intro ch hm
      obtain ⟨a, ha, hma⟩ := forall₂_mem_left hrest ch hm
      exact hB a ha ch hma
    obtain ⟨v2, hv2⟩ := solve_result_total hc2ne h2d
    unfold acceptCandidate
    rw [hex, hres]
    simp only [hv1, hv2]
    exact ⟨_, rfl⟩


/-- `acceptCandidate_total` with its alphabet-level side conditions
phrased as decidable boolean facts, so that concrete patterns discharge
them by computation. -/
theorem acceptCandidate_total_dec {A B : List (List Char)} {cs : List Char}
    (hAne : A ≠ []) (hBne : B ≠ [])
    (hA : A.all (fun a => a.all (fun ch => ch.isDigit || decide (ch ∈ ops4))) = true)
    (hAhead : (A.head?.getD []).all Char.isDigit = true)
    (hAlast : (A.getLast?.getD []).all Char.isDigit = true)
    (hAeq : A.all (fun a => !a.contains '=') = true)
    (hB : B.all (fun a => a.all Char.isDigit) = true)
    (hc : List.Forall₂ (fun ch a => ch ∈ a) cs (A ++ ['='] :: B)) :
    ∃ b, acceptCandidate cs = .ok b := by
  apply acceptCandidate_total hAne hBne ?_ ?_ ?_ ?_ ?_ hc
  · intro a ha ch hch
    have h1 := (List.all_eq_true.mp hA) a ha
    have h2 := (List.all_eq_true.mp h1) ch hch
    rw [Bool.or_eq_true] at h2
    rcases h2 with h | h
    · exact Or.inl h
    · exact Or.inr (of_decide_eq_true h)
  · intro a ha ch hch
    rw [ha] at hAhead
    rw [Option.getD_some] at hAhead
    exact (List.all_eq_true.mp hAhead) ch hch
  · intro a ha ch hch
    rw [ha] at hAlast
    rw [Option.getD_some] at hAlast
    exact (List.all_eq_true.mp hAlast) ch hch
  · intro a ha hm
    have h1 := (List.all_eq_true.mp hAeq) a ha
    simp at h1
    exact absurd hm h1
  · intro a ha ch hch
    have h1 := (List.all_eq_true.mp hB) a ha
    exact (List.all_eq_true.mp h1) ch hch

/-- C1: on every candidate produced by the enumerator the filter is
well-defined (neither solver faults); the filter accepts a candidate
exactly when `evaluate` on the part before `'='` and `parseResult` on
the part after `'='` both return non-invalid values and those values
are equal; and `gen_equations` emits exactly the accepted candidate
strings, unmodified (membership of the original candidate itself). -/
theorem c1_filter_iff :
    (∀ (m : GameMode) (p : List (List Char)) (cs : List Char),
        p ∈ genPatterns m → cs ∈ prodAll p → ∃ b, acceptCandidate cs = .ok b) ∧
    (∀ cs : List Char, acceptCandidate cs = .ok true ↔
        ∃ v : Int, solve_expression (exprPart cs) = .ok (some v) ∧
          solve_result (resPart cs) = .ok (some v)) ∧
    (∀ (m : GameMode) (cs : List Char), cs ∈ genEquations m ↔
        ((∃ p ∈ genPatterns m, cs ∈ prodAll p) ∧ acceptCandidate cs = .ok true)) := by
  refine ⟨?_, ?_, ?_⟩
  · intro m p cs hp hc
    have hf := (prodAll_mem p cs).mp hc
    cases m with
    | mini =>
      have hpats : genPatterns GameMode.mini =
          [[D19, DOps, D09, ['='], D19, D09],
           [D19, DOps, DOps, D09, ['='], D09]] := by decide
      rw [hpats] at hp
      simp only [List.mem_cons, List.not_mem_nil, or_false] at hp
      rcases hp with rfl | rfl
      · exact @acceptCandidate_total_dec [D19, DOps, D09] [D19, D09] cs
          (by decide) (by decide) (by decide) (by decide) (by decide)
          (by decide) (by decide) hf
      · exact @acceptCandidate_total_dec [D19, DOps, DOps, D09] [D09] cs
          (by decide) (by decide) (by decide) (by decide) (by decide)
          (by decide) (by decide) hf
    | regular =>
      have hpats : genPatterns GameMode.regular =
          [[D19, DOps, DOps, D09, ['='], D19, D09, D09],
           [D19, DOps, DOps, DOps, D09, ['='], D19, D09],
           [D19, DOps, DOps, DOps, DOps, D09, ['='], D09]] := by decide
      rw [hpats] at hp
      simp only [List.mem_cons, List.not_mem_nil, or_false] at hp
      rcases hp with rfl | rfl | rfl
      · exact @acceptCandidate_total_dec [D19, DOps, DOps, D09] [D19, D09, D09] cs
          (by decide) (by decide) (by decide) (by decide) (by decide)
          (by decide) (by decide) hf
      · exact @acceptCandidate_total_dec [D19, DOps, DOps, DOps, D09] [D19, D09] cs
          (by decide) (by decide) (by decide) (by decide) (by decide)
          (by decide) (by decide) hf
      · exact @acceptCandidate_total_dec [D19, DOps, DOps, DOps, DOps, D09] [D09] cs
          (by decide) (by decide) (by decide) (by decide) (by decide)
          (by decide) (by decide) hf
  · intro cs
    unfold acceptCandidate
    cases h1 : solve_expression (exprPart cs) with
    | error f => simp
    | ok v1 =>
      cases h2 : solve_result (resPart cs) with
      | error f => simp
      | ok v2 =>
        cases v1 with
        | none =>
          cases v2 with
          | none => simp
          | some b => simp
        | some a =>
          cases v2 with
          | none => simp
          | some b =>
            simp only [Except.ok.injEq, Option.some.injEq]
            constructor
            · intro h
              exact ⟨a, rfl, by rw [of_decide_eq_true h]⟩
            · rintro ⟨v, rfl, hb⟩
              rw [hb]
              simp
  · intro m cs
    unfold genEquations
    rw [List.mem_flatMap]
    constructor
    · rintro ⟨p, hp, hm⟩
      rw [List.mem_filter] at hm
      exact ⟨⟨p, hp, hm.1⟩, of_decide_eq_true hm.2⟩
    · rintro ⟨⟨p, hp, hm⟩, hacc⟩
      exact ⟨p, hp, List.mem_filter.mpr ⟨hm, decide_eq_true hacc⟩⟩

/-- Witness for C1: the Mini candidate `"9+5=14"` evaluates without
fault, and the filter accepts it (`9+5 = 14` on both sides). -/
theorem c1_witness :
    (∃ b, acceptCandidate (strChars "9+5=14") = .ok b) ∧
      acceptCandidate (strChars "9+5=14") = .ok true := by
  constructor
  · apply c1_filter_iff.1 GameMode.mini [D19, DOps, D09, ['='], D19, D09]
      (strChars "9+5=14") (by decide)
    apply (prodAll_mem _ _).mpr
    have hs : strChars "9+5=14" = ['9', '+', '5', '=', '1', '4'] := by decide
    rw [hs]
    exact .cons (by decide) (.cons (by decide) (.cons (by decide) (.cons (by decide)
      (.cons (by decide) (.cons (by decide) .nil)))))
  · decide
